import Mathlib

/-!
Verification of the grammar-guided genetic programming core (`gggp`).

This file gives a shallow embedding, in Lean 4, of the data model and
operations of the `gggp` Python package: grammars and derivation trees
(`gggp/grammar.py`), arithmetic expression trees and their evaluation
(`gggp/tree.py`), complexity metrics (`gggp/complexity.py`), fitness
evaluation (`gggp/fitness.py`), selection (`gggp/selection.py`),
population queries (`gggp/population.py`) and the variation operators
(`gggp/variation.py`).

Modelling conventions:
* Python floats are modelled as exact rationals (`ℚ`).  The IEEE value
  `-inf`, which the fitness evaluator uses as a sentinel, is modelled by
  an explicit inductive (`FitVal`) with a bottom element, and the
  comparisons the source performs on possibly-infinite floats are
  spelled out case by case.
* Fallible Python code (raising `ValueError`, `KeyError`,
  `ZeroDivisionError`, `IndexError`, `TypeError`, `GrammarError`) is
  modelled with `Except` over explicit error enumerations.
* `random.Random` is modelled by an infinite stream `s : ℕ → ℕ` of draws
  together with a cursor; `rng.choice(xs)` becomes indexing by
  `s k % xs.length`.  Every concrete run of the Python code corresponds
  to some stream.
* Recursive grammar expansion need not terminate for adversarial
  grammars, so it is written with explicit fuel; the Python functions'
  behaviour is captured by the fuelled function on inputs where it
  returns without exhausting fuel.
* Object identity (used by `replace_subtree` and by the "operators do
  not mutate their parents" contract) is modelled by an explicit heap
  mapping node ids to node records, with a bump allocator.
-/

/-- Last element of a character list. -/
def lastChar : List Char → Option Char
  | [] => none
  | [c] => some c
  | _ :: c :: rest => lastChar (c :: rest)

/-- Mirrors `Grammar.is_non_terminal` (`gggp/grammar.py`): a symbol is a
non-terminal iff it is enclosed in angle brackets, i.e. it starts with
the character `<` and ends with the character `>`.  Written over the
character list so that it evaluates structurally. -/
def isNonTerminal (symbol : String) : Bool :=
  match symbol.toList with
  | [] => false
  | c :: rest => decide (c = '<') && decide (lastChar (c :: rest) = some '>')

/-- Digits-to-number accumulator used by the decimal literal parser. -/
def digitsToNat (cs : List Char) : Option ℕ :=
  cs.foldl
    (fun acc c =>
      match acc with
      | none => none
      | some n => if c.isDigit then some (10 * n + (c.toNat - 48)) else none)
    (some 0)

/-- Parse a non-empty all-digit string. -/
def parseDigits (cs : List Char) : Option ℕ :=
  if cs.isEmpty then none else digitsToNat cs

/-- Split a character list into the groups separated by `.`, as
Python's `"a.b".split(".")` would. -/
def splitOnDot : List Char → List (List Char)
  | [] => [[]]
  | c :: rest =>
    let r := splitOnDot rest
    if c = '.' then [] :: r
    else
      match r with
      | [] => [[c]]
      | g :: gs => (c :: g) :: gs

/-- Magnitude part of a decimal literal: an integer part and an
optional fractional part separated by a dot. -/
def parseMagnitude (cs : List Char) : Option ℚ :=
  match splitOnDot cs with
  | [ip] => (parseDigits ip).map (fun n => (n : ℚ))
  | [ip, fp] =>
    match parseDigits ip, parseDigits fp with
    | some n, some f => some ((n : ℚ) + (f : ℚ) / (10 : ℚ) ^ fp.length)
    | _, _ => none
  | _ => none

/-- Model of Python's `float(string)` conversion on decimal literals,
as used by `ExpressionNode.evaluate` on constant nodes
(`gggp/tree.py`): an optional minus sign, an integer part and an
optional fractional part.  A string that is not such a literal fails
(Python raises `ValueError`). -/
def parseFloat (str : String) : Option ℚ :=
  match str.toList with
  | '-' :: body => (parseMagnitude body).map (fun q => -q)
  | body => (parseMagnitude body).map (fun q => q)

/-- Errors raised by `ExpressionNode.evaluate` (`gggp/tree.py`):
`ZeroDivisionError`, `ValueError` and `KeyError`. -/
inductive EvalErr where
  | zeroDiv
  | valueError
  | keyError
deriving DecidableEq, Repr

/-- Mirrors `_safe_division` (`gggp/tree.py`): denominators of magnitude
below `1e-12` raise `ZeroDivisionError`. -/
def safeDivision (left right : ℚ) : Except EvalErr ℚ :=
  if |right| < 1 / 1000000000000 then .error .zeroDiv else .ok (left / right)

/-- Mirrors the `OPERATORS` dispatch table (`gggp/tree.py`). -/
def applyOperator (op : String) (a b : ℚ) : Except EvalErr ℚ :=
  if op = "+" then .ok (a + b)
  else if op = "-" then .ok (a - b)
  else if op = "*" then .ok (a * b)
  else if op = "/" then safeDivision a b
  else .error .valueError

/-- Membership in the keys of `OPERATORS` (`gggp/tree.py`). -/
def isRegisteredOperator (op : String) : Bool :=
  op = "+" || op = "-" || op = "*" || op = "/"

/-- Mirrors `ExpressionNode` (`gggp/tree.py`): a kind tag, a value and a
list of children.  Values are kept as strings; constant nodes parse
their value at evaluation time, exactly as the source calls
`float(self.value)`. -/
inductive ExpressionNode where
  | mk (kind : String) (value : String) (children : List ExpressionNode)

/-- Kind accessor for `ExpressionNode`. -/
def ExpressionNode.kind : ExpressionNode → String
  | .mk k _ _ => k

/-- Value accessor for `ExpressionNode`. -/
def ExpressionNode.value : ExpressionNode → String
  | .mk _ v _ => v

/-- Children accessor for `ExpressionNode`. -/
def ExpressionNode.children : ExpressionNode → List ExpressionNode
  | .mk _ _ cs => cs

/-- Mirrors `ExpressionNode.evaluate` (`gggp/tree.py`).  Variable nodes
look their value up in the context (`KeyError` when absent), constant
nodes parse their value as a float, operator nodes require a registered
operator and exactly two children, and any other kind raises
`ValueError`. -/
def ExpressionNode.evaluate : ExpressionNode → List (String × ℚ) → Except EvalErr ℚ
  | .mk kind value children, context =>
    if kind = "variable" then
      match context.lookup value with
      | none => .error .keyError
      | some v => .ok v
    else if kind = "constant" then
      match parseFloat value with
      | none => .error .valueError
      | some q => .ok q
    else if kind = "operator" then
      if !isRegisteredOperator value then .error .valueError
      else
        match children with
        | [l, r] => do
            let a ← l.evaluate context
            let b ← r.evaluate context
            applyOperator value a b
        | _ => .error .valueError
    else .error .valueError

/-- Mirrors `FitnessCase` (`gggp/fitness.py`). -/
structure FitnessCase where
  inputs : List (String × ℚ)
  target : ℚ
deriving DecidableEq, Repr

/-- A Python float fitness score: either the sentinel `-inf` or a finite
value. -/
inductive FitVal where
  | ninf
  | fin (q : ℚ)
deriving DecidableEq, Repr

/-- Subtraction of a finite penalty from a fitness score, following IEEE
semantics of `-inf - finite = -inf`. -/
def FitVal.subPenalty : FitVal → ℚ → FitVal
  | .ninf, _ => .ninf
  | .fin q, p => .fin (q - p)

/-- Mirrors `ComplexityMetrics` (`gggp/complexity.py`). -/
structure ComplexityMetrics where
  node_count : ℕ
  depth : ℕ
  terminal_count : ℕ
deriving DecidableEq, Repr

/-- Mirrors `ComplexityMetrics.scalar` (`gggp/complexity.py`). -/
def ComplexityMetrics.scalar (m : ComplexityMetrics) : ℚ :=
  (m.node_count : ℚ)

/-- Lexicographic `<=` on `(node_count, depth, terminal_count)`, as
generated by `@dataclass(order=True)` on `ComplexityMetrics`. -/
def cmLe (a b : ComplexityMetrics) : Bool :=
  if a.node_count ≠ b.node_count then decide (a.node_count < b.node_count)
  else if a.depth ≠ b.depth then decide (a.depth < b.depth)
  else decide (a.terminal_count ≤ b.terminal_count)

/-- Lexicographic strict `<` on `(node_count, depth, terminal_count)`. -/
def cmLt (a b : ComplexityMetrics) : Bool :=
  if a.node_count ≠ b.node_count then decide (a.node_count < b.node_count)
  else if a.depth ≠ b.depth then decide (a.depth < b.depth)
  else decide (a.terminal_count < b.terminal_count)

/-- The fitness-relevant part of `Individual` (`gggp/individual.py`):
its built expression, its complexity snapshot, and the two optional
fitness fields (`none` models Python's `None`). -/
structure Individual where
  expression : ExpressionNode
  complexity : ComplexityMetrics
  raw_fitness : Option FitVal := none
  adjusted_fitness : Option FitVal := none

/-- Mirrors `FitnessEvaluator` (`gggp/fitness.py`); its constructor
rejects an empty case list, so theorems carry `cases ≠ []`. -/
structure FitnessEvaluator where
  cases : List FitnessCase
  penalty_coefficient : ℚ

/-- Loop body of `FitnessEvaluator.evaluate_expression`
(`gggp/fitness.py`): walk the cases, short-circuiting to `-inf` on the
first evaluation error, otherwise accumulating squared errors. -/
def evalExprGo (e : ExpressionNode) : List FitnessCase → List ℚ → FitVal
  | [], errs => .fin (-(errs.sum / (errs.length : ℚ)))
  | c :: rest, errs =>
    match e.evaluate c.inputs with
    | .error _ => .ninf
    | .ok v => evalExprGo e rest (errs ++ [(v - c.target) ^ 2])

/-- Mirrors `FitnessEvaluator.evaluate_expression` (`gggp/fitness.py`):
negative mean squared error over all cases, `-inf` as soon as any case
raises. -/
def FitnessEvaluator.evaluate_expression (ev : FitnessEvaluator) (e : ExpressionNode) : FitVal :=
  evalExprGo e ev.cases []

/-- Mirrors `FitnessEvaluator.evaluate` (`gggp/fitness.py`): store the
raw and penalty-adjusted scores on the individual and return the
adjusted score.  The updated individual is returned explicitly, since
the embedding is pure. -/
def FitnessEvaluator.evaluate (ev : FitnessEvaluator) (ind : Individual) : Individual × FitVal :=
  let raw := ev.evaluate_expression ind.expression
  let penalty := ev.penalty_coefficient * ind.complexity.scalar
  let adjusted := raw.subPenalty penalty
  ({ ind with raw_fitness := some raw, adjusted_fitness := some adjusted }, adjusted)

/-- Spec-side mean squared error of an expression over a case list (the
error term is read off the successful evaluation of each case). -/
def specMse (e : ExpressionNode) (cases : List FitnessCase) : ℚ :=
  ((cases.map fun c =>
      match e.evaluate c.inputs with
      | .ok v => (v - c.target) ^ 2
      | .error _ => 0)).sum / (cases.length : ℚ)

/-- Errors raised by the selection module (`gggp/selection.py`). -/
inductive SelErr where
  | unevaluated
deriving DecidableEq, Repr

/-- The comparison `diff > tolerance` performed by `prefer_fittest` on
Python floats, where either side of the subtraction may be `-inf`
(`-inf - -inf` is NaN, and NaN comparisons are false). -/
def fvDiffGt (a b : FitVal) (tolerance : ℚ) : Bool :=
  match a, b with
  | .fin x, .fin y => decide (x - y > tolerance)
  | .fin _, .ninf => true
  | .ninf, .fin _ => false
  | .ninf, .ninf => false

/-- The comparison `diff < -tolerance` performed by `prefer_fittest`. -/
def fvDiffLtNeg (a b : FitVal) (tolerance : ℚ) : Bool :=
  match a, b with
  | .fin x, .fin y => decide (x - y < -tolerance)
  | .fin _, .ninf => false
  | .ninf, .fin _ => true
  | .ninf, .ninf => false

/-- Mirrors `prefer_fittest` (`gggp/selection.py`). -/
def prefer_fittest (a b : Individual) (tolerance : ℚ) : Except SelErr Individual :=
  match a.adjusted_fitness, b.adjusted_fitness with
  | none, _ => .error .unevaluated
  | _, none => .error .unevaluated
  | some fa, some fb =>
    if fvDiffGt fa fb tolerance then .ok a
    else if fvDiffLtNeg fa fb tolerance then .ok b
    else .ok (if cmLe a.complexity b.complexity then a else b)

/-- Errors raised by `Population.best` (`gggp/population.py`): Python's
`max` raises `TypeError` when a key comparison involves `None` and
`ValueError` on an empty sequence. -/
inductive PyErr where
  | typeError
  | valueError
deriving DecidableEq, Repr

/-- Strict `>` on Python float fitness scores, where either side may be
the `-inf` sentinel. -/
def fvGtB : FitVal → FitVal → Bool
  | .fin a, .fin b => decide (b < a)
  | .fin _, .ninf => true
  | .ninf, .fin _ => false
  | .ninf, .ninf => false

/-- The comparison `key(candidate) > key(current)` performed inside
Python's builtin `max`: comparing `None` with anything (even `None`)
raises `TypeError`; otherwise float comparison with `-inf`. -/
def keyGt : Option FitVal → Option FitVal → Except PyErr Bool
  | some x, some y => .ok (fvGtB x y)
  | _, _ => .error .typeError

/-- Fold of Python's builtin `max` over the remaining individuals,
keeping the current maximum (ties keep the earlier element). -/
def bestGo (cur : Individual) : List Individual → Except PyErr Individual
  | [] => .ok cur
  | y :: ys =>
    match keyGt y.adjusted_fitness cur.adjusted_fitness with
    | .error e => .error e
    | .ok true => bestGo y ys
    | .ok false => bestGo cur ys

/-- Mirrors `Population.best` (`gggp/population.py`):
`max(self.individuals, key=lambda i: i.adjusted_fitness)`. -/
def populationBest (individuals : List Individual) : Except PyErr Individual :=
  match individuals with
  | [] => .error .valueError
  | x :: rest => bestGo x rest

/-- A concrete scored individual, used to instantiate theorems. -/
def sampleScoredA : Individual :=
  ⟨.mk "constant" "1" [], ⟨1, 1, 1⟩, none, some (.fin 1)⟩

/-- A second concrete scored individual. -/
def sampleScoredB : Individual :=
  ⟨.mk "constant" "2" [], ⟨1, 1, 1⟩, none, some (.fin 2)⟩

/-- A concrete individual whose fitness fields are unset. -/
def sampleUnscored : Individual :=
  ⟨.mk "constant" "2" [], ⟨1, 1, 1⟩, none, none⟩

/-! ## Grammar and derivation engine (`gggp/grammar.py`) -/

/-- Mirrors `Production` (`gggp/grammar.py`): an ordered tuple of
tokens. -/
structure Production where
  expansion : List String
deriving DecidableEq, Repr

/-- Mirrors `Production.is_terminal_only`. -/
def Production.is_terminal_only (p : Production) : Bool :=
  p.expansion.all fun token => !isNonTerminal token

/-- Mirrors `Production.is_self_recursive`. -/
def Production.is_self_recursive (p : Production) (symbol : String) : Bool :=
  p.expansion.contains symbol

/-- Mirrors `DerivationNode` (`gggp/grammar.py`) as a pure value tree
(symbol plus ordered children). -/
inductive DerivationNode where
  | node (symbol : String) (children : List DerivationNode)

/-- Symbol accessor for `DerivationNode`. -/
def DerivationNode.symbol : DerivationNode → String
  | .node s _ => s

/-- Children accessor for `DerivationNode`. -/
def DerivationNode.childList : DerivationNode → List DerivationNode
  | .node _ cs => cs

/-- Mirrors `Grammar` (`gggp/grammar.py`): a start symbol and the
per-non-terminal production lists (the Python dict is modelled as a
total function returning `[]` for unregistered symbols, exactly what
`productions_for` returns via `dict.get`). -/
structure Grammar where
  start_symbol : String
  prods : String → List Production

/-- Mirrors `Grammar.productions_for`. -/
def Grammar.productions_for (g : Grammar) (non_terminal : String) : List Production :=
  g.prods non_terminal

/-- Mirrors `Grammar.add_rule`: append one production for a
non-terminal. -/
def Grammar.add_rule (g : Grammar) (non_terminal : String) (expansion : List String) : Grammar :=
  { g with prods := fun s =>
      if s = non_terminal then g.prods s ++ [⟨expansion⟩] else g.prods s }

/-- Errors of the grammar engine: `ValueError` for a non-positive
`max_depth`, `GrammarError` for a missing production set, and an
out-of-fuel marker that is an artefact of the fuelled embedding (the
Python recursion can diverge on adversarial grammars). -/
inductive GenErr where
  | valueError
  | grammarError
  | outOfFuel
deriving DecidableEq, Repr

/-- Mirrors `Grammar.inject_terminals`: replace the productions of a
non-terminal with one single-token production per terminal, failing on
an empty terminal list. -/
def Grammar.inject_terminals (g : Grammar) (non_terminal : String) (terminals : List String) :
    Except GenErr Grammar :=
  if terminals = [] then .error .grammarError
  else .ok { g with prods := fun s =>
      if s = non_terminal then terminals.map (fun value => ⟨[value]⟩) else g.prods s }

/-- Mirrors `Grammar._eligible_productions` (`gggp/grammar.py`). -/
def eligible_productions (symbol : String) (productions : List Production)
    (depth max_depth : ℤ) : List Production :=
  if depth < max_depth then productions
  else if productions.filter (fun prod => prod.is_terminal_only) ≠ [] then
    productions.filter (fun prod => prod.is_terminal_only)
  else if productions.filter (fun prod => !prod.is_self_recursive symbol) ≠ [] then
    productions.filter (fun prod => !prod.is_self_recursive symbol)
  else productions

mutual

/-- Mirrors `Grammar._expand` (`gggp/grammar.py`).  `s` is the stream
of random draws, `k` the cursor into it; `rng.choice(options)` is
modelled as `options[s k % options.length]`.  The fuel argument only
bounds the recursion depth of the embedding. -/
def Grammar.expand (g : Grammar) (s : ℕ → ℕ) :
    ℕ → String → ℤ → ℤ → ℕ → Except GenErr (DerivationNode × ℕ)
  | 0, _, _, _, _ => .error .outOfFuel
  | fuel + 1, symbol, depth, max_depth, k =>
    if isNonTerminal symbol then
      let productions := g.productions_for symbol
      if productions = [] then .error .grammarError
      else
        let options := eligible_productions symbol productions depth max_depth
        let production := options.getD (s k % options.length) ⟨[]⟩
        match Grammar.expandTokens g s fuel production.expansion (depth + 1) max_depth (k + 1) with
        | .error e => .error e
        | .ok (children, k') => .ok (.node symbol children, k')
    else .ok (.node symbol [], k)
termination_by fuel _ _ _ _ => (fuel, 0)

/-- Expand each token of a production in order, at the given child
depth, threading the stream cursor. -/
def Grammar.expandTokens (g : Grammar) (s : ℕ → ℕ) :
    ℕ → List String → ℤ → ℤ → ℕ → Except GenErr (List DerivationNode × ℕ)
  | _, [], _, _, k => .ok ([], k)
  | fuel, token :: rest, depth, max_depth, k =>
    match Grammar.expand g s fuel token depth max_depth k with
    | .error e => .error e
    | .ok (child, k') =>
      match Grammar.expandTokens g s fuel rest depth max_depth k' with
      | .error e => .error e
      | .ok (children, k'') => .ok (child :: children, k'')
termination_by fuel tokens _ _ _ => (fuel, tokens.length + 1)

end

/-- Mirrors `Grammar.generate` (`gggp/grammar.py`): reject a
non-positive `max_depth`, then expand from the start symbol at depth
0. -/
def Grammar.generate (g : Grammar) (s : ℕ → ℕ) (fuel : ℕ) (max_depth : ℤ) :
    Except GenErr DerivationNode :=
  if max_depth < 1 then .error .valueError
  else
    match Grammar.expand g s fuel g.start_symbol 0 max_depth 0 with
    | .error e => .error e
    | .ok (tree, _) => .ok tree

/-- Mirrors `build_arithmetic_grammar` (`gggp/grammar.py`); the
`operations` argument models `operations or ["+", "-", "*", "/"]`
already resolved, and constants are passed as their token strings
(Python stringifies them on injection). -/
def build_arithmetic_grammar (vars consts ops : List String) :
    Except GenErr Grammar := do
  let g : Grammar := ⟨"<expr>", fun _ => []⟩
  let g := g.add_rule "<expr>" ["<operation>"]
  let g := g.add_rule "<expr>" ["<var>"]
  let g := g.add_rule "<expr>" ["<const>"]
  let g := g.add_rule "<operation>" ["<op>", "<expr>", "<expr>"]
  let g ← g.inject_terminals "<var>" vars
  let g ← g.inject_terminals "<const>" consts
  g.inject_terminals "<op>" ops

/-! ## Expression builder (`gggp/tree.py`, `ArithmeticTreeBuilder`) -/

/-- Errors raised by `ArithmeticTreeBuilder`: `ValueError` for
structural-validation failures and `IndexError` for Python's
`node.children[0]` on a childless node. -/
inductive BuildErr where
  | valueError
  | indexError
deriving DecidableEq, Repr

mutual

/-- Number of nodes of a derivation tree (for induction). -/
def dnSize : DerivationNode → ℕ
  | .node _ children => 1 + dnSizeList children

/-- Total size of a list of derivation trees. -/
def dnSizeList : List DerivationNode → ℕ
  | [] => 0
  | c :: rest => dnSize c + dnSizeList rest

end

/-- Mirrors `ArithmeticTreeBuilder._extract_token` (`gggp/tree.py`):
a childless terminal yields its symbol; a node with children descends
into its first child; a childless non-terminal fails. -/
def extractToken : DerivationNode → Except BuildErr String
  | .node sym children =>
    if children.isEmpty && !isNonTerminal sym then .ok sym
    else
      match children with
      | c :: _ => extractToken c
      | [] => .error .valueError

mutual

/-- Mirrors `ArithmeticTreeBuilder._convert` (`gggp/tree.py`),
dispatching on the non-terminal identity exactly as the source's chain
of `if` statements does; each branch's body is split into a helper
function of the children list to keep the embedding's equations small.
`ArithmeticTreeBuilder.build` simply calls this. -/
def convert : DerivationNode → Except BuildErr ExpressionNode
  | .node sym children =>
    if sym = "<expr>" then convertExpr children
    else if sym = "<operation>" then convertOperation children
    else if sym = "<var>" then convertVar children
    else if sym = "<const>" then convertConst children
    else if sym = "<op>" then convertOp children
    else if !isNonTerminal sym then .ok (.mk "literal" sym [])
    else convertPass children
termination_by t => 2 * dnSize t
decreasing_by all_goals (simp [dnSize, dnSizeList]; try omega)

/-- Branch of `_convert` for `<expr>` nodes: unwrap the first child. -/
def convertExpr : List DerivationNode → Except BuildErr ExpressionNode
  | [] => .error .valueError
  | c :: _ => convert c
termination_by children => 2 * dnSizeList children + 1
decreasing_by all_goals (simp [dnSize, dnSizeList]; try omega)

/-- Branch of `_convert` for `<operation>` nodes: exactly three
children, the first supplying the operator token. -/
def convertOperation : List DerivationNode → Except BuildErr ExpressionNode
  | [opChild, l, r] =>
    match extractToken opChild with
    | .error e => .error e
    | .ok token =>
      match convert l with
      | .error e => .error e
      | .ok le =>
        match convert r with
        | .error e => .error e
        | .ok re => .ok (.mk "operator" token [le, re])
  | _ => .error .valueError
termination_by children => 2 * dnSizeList children + 1
decreasing_by all_goals (simp [dnSize, dnSizeList]; try omega)

/-- Branch of `_convert` for `<var>` nodes: Python indexes
`node.children[0]` (an `IndexError` when childless) and extracts the
token below it. -/
def convertVar : List DerivationNode → Except BuildErr ExpressionNode
  | [] => .error .indexError
  | c :: _ =>
    match extractToken c with
    | .error e => .error e
    | .ok token => .ok (.mk "variable" token [])
termination_by children => 2 * dnSizeList children + 1
decreasing_by all_goals (simp [dnSize, dnSizeList]; try omega)

/-- Branch of `_convert` for `<const>` nodes. -/
def convertConst : List DerivationNode → Except BuildErr ExpressionNode
  | [] => .error .indexError
  | c :: _ =>
    match extractToken c with
    | .error e => .error e
    | .ok token => .ok (.mk "constant" token [])
termination_by children => 2 * dnSizeList children + 1
decreasing_by all_goals (simp [dnSize, dnSizeList]; try omega)

/-- Branch of `_convert` for `<op>` nodes. -/
def convertOp : List DerivationNode → Except BuildErr ExpressionNode
  | [] => .error .indexError
  | c :: _ =>
    match extractToken c with
    | .error e => .error e
    | .ok token => .ok (.mk "operator-token" token [])
termination_by children => 2 * dnSizeList children + 1
decreasing_by all_goals (simp [dnSize, dnSizeList]; try omega)

/-- Final branch of `_convert`: an unrecognised non-terminal with a
single child passes through, anything else fails. -/
def convertPass : List DerivationNode → Except BuildErr ExpressionNode
  | [c] => convert c
  | _ => .error .valueError
termination_by children => 2 * dnSizeList children + 1
decreasing_by all_goals (simp [dnSize, dnSizeList]; try omega)

end

/-- Derivation-tree shapes from which `_extract_token` can read a
literal token: a terminal leaf, or any node whose first child can. -/
inductive TokenSource : DerivationNode → Prop where
  | leaf (sym : String) :
      isNonTerminal sym = false → TokenSource (.node sym [])
  | step (sym : String) (c : DerivationNode) (rest : List DerivationNode) :
      TokenSource c → TokenSource (.node sym (c :: rest))

/-- Derivation-tree shapes accepted by `ArithmeticTreeBuilder._convert`:
the spec-side characterisation of the translation rules, including that
children beyond the first of `<expr>`, `<var>`, `<const>` and `<op>`
are ignored. -/
inductive GoodShape : DerivationNode → Prop where
  | expr (c : DerivationNode) (rest : List DerivationNode) :
      GoodShape c → GoodShape (.node "<expr>" (c :: rest))
  | operation (opChild l r : DerivationNode) :
      TokenSource opChild → GoodShape l → GoodShape r →
      GoodShape (.node "<operation>" [opChild, l, r])
  | var (c : DerivationNode) (rest : List DerivationNode) :
      TokenSource c → GoodShape (.node "<var>" (c :: rest))
  | const (c : DerivationNode) (rest : List DerivationNode) :
      TokenSource c → GoodShape (.node "<const>" (c :: rest))
  | opNT (c : DerivationNode) (rest : List DerivationNode) :
      TokenSource c → GoodShape (.node "<op>" (c :: rest))
  | literal (sym : String) (children : List DerivationNode) :
      isNonTerminal sym = false → GoodShape (.node sym children)
  | passthrough (sym : String) (c : DerivationNode) :
      sym ≠ "<expr>" → sym ≠ "<operation>" → sym ≠ "<var>" →
      sym ≠ "<const>" → sym ≠ "<op>" → isNonTerminal sym = true →
      GoodShape c → GoodShape (.node sym [c])

/-! ## Derivation trees of the reference arithmetic grammar -/

/-- Derivation trees the reference arithmetic grammar can produce from
each of its non-terminals, as a spec-side inductive shape. -/
inductive GenTree (vars consts ops : List String) : String → DerivationNode → Prop where
  | exprOp {t : DerivationNode} :
      GenTree vars consts ops "<operation>" t →
      GenTree vars consts ops "<expr>" (.node "<expr>" [t])
  | exprVar {t : DerivationNode} :
      GenTree vars consts ops "<var>" t →
      GenTree vars consts ops "<expr>" (.node "<expr>" [t])
  | exprConst {t : DerivationNode} :
      GenTree vars consts ops "<const>" t →
      GenTree vars consts ops "<expr>" (.node "<expr>" [t])
  | operation {o l r : DerivationNode} :
      GenTree vars consts ops "<op>" o →
      GenTree vars consts ops "<expr>" l →
      GenTree vars consts ops "<expr>" r →
      GenTree vars consts ops "<operation>" (.node "<operation>" [o, l, r])
  | var {v : String} : v ∈ vars →
      GenTree vars consts ops "<var>" (.node "<var>" [.node v []])
  | const {c : String} : c ∈ consts →
      GenTree vars consts ops "<const>" (.node "<const>" [.node c []])
  | op {o : String} : o ∈ ops →
      GenTree vars consts ops "<op>" (.node "<op>" [.node o []])

/-- Per-symbol specification of what `_expand` produces on the
reference arithmetic grammar: a `GenTree` for its five non-terminals,
and an immediate leaf for every other symbol (unknown non-terminals
cannot expand successfully, so the leaf clause is vacuous there). -/
def SymSpec (vars consts ops : List String) (sym : String) (t : DerivationNode) : Prop :=
  if sym = "<expr>" ∨ sym = "<operation>" ∨ sym = "<var>" ∨ sym = "<const>" ∨
      sym = "<op>" then
    GenTree vars consts ops sym t
  else t = .node sym []

/-- Well-formed arithmetic expressions: variables drawn from `vars`,
constants that parse as floats, and registered binary operators. -/
inductive WfArith (vars : List String) : ExpressionNode → Prop where
  | var {v : String} : v ∈ vars → WfArith vars (.mk "variable" v [])
  | const {c : String} {q : ℚ} :
      parseFloat c = some q → WfArith vars (.mk "constant" c [])
  | opNode {o : String} {l r : ExpressionNode} :
      isRegisteredOperator o = true → WfArith vars l → WfArith vars r →
      WfArith vars (.mk "operator" o [l, r])

/-- The reference arithmetic grammar over one variable `x`, one
constant `1` and the default operators, used to instantiate
theorems. -/
def sampleArithGrammar : Grammar :=
  match build_arithmetic_grammar ["x"] ["1"] ["+", "-", "*", "/"] with
  | .ok g => g
  | .error _ => ⟨"<expr>", fun _ => []⟩

/-- A one-rule demonstration grammar used to instantiate grammar
theorems. -/
def demoGrammar : Grammar :=
  ⟨"<e>", fun s => if s = "<e>" then [⟨["a"]⟩] else []⟩

/-! ## Heap model of derivation-node object identity
(`gggp/variation.py`)

Python's `replace_subtree` matches its target by object identity
(`root is target`), and the spec asserts that crossover and mutation
never mutate their parents' node objects.  To state these properties,
derivation nodes are modelled as records in an explicit heap addressed
by numeric ids, with a bump allocator: `DerivationNode(symbol=...,
children=[...])` becomes an allocation, `is` becomes id equality, and
"the parent is unchanged" becomes a frame property over the heap. -/

/-- One `DerivationNode` object: its symbol and the ids of its
children. -/
structure NodeRec where
  symbol : String
  children : List ℕ
deriving DecidableEq, Repr

/-- The object heap: a bump allocator cursor and the allocated
records. -/
structure Heap where
  next : ℕ
  mem : ℕ → Option NodeRec

/-- Allocate a fresh node record, returning its id. -/
def Heap.alloc (h : Heap) (r : NodeRec) : ℕ × Heap :=
  (h.next, ⟨h.next + 1, fun i => if i = h.next then some r else h.mem i⟩)

/-- Well-formedness: no record lives at or above the allocation
cursor. -/
def Heap.wf (h : Heap) : Prop := ∀ i, h.next ≤ i → h.mem i = none

/-- Closedness: children of live records are live. -/
def Heap.closed (h : Heap) : Prop :=
  ∀ i r, h.mem i = some r → ∀ c ∈ r.children, (h.mem c).isSome = true

/-- Heap evolution by allocation only: the cursor grows and all
pre-existing addresses keep their contents. -/
def heapExtends (h h' : Heap) : Prop :=
  h.next ≤ h'.next ∧ ∀ i, i < h.next → h'.mem i = h.mem i

/-- Reachability along child pointers, i.e. "x is a node object of the
tree rooted at i". -/
inductive Reach (h : Heap) : ℕ → ℕ → Prop where
  | refl (i : ℕ) : Reach h i i
  | child {i c j : ℕ} {r : NodeRec} :
      h.mem i = some r → c ∈ r.children → Reach h c j → Reach h i j

mutual

/-- Read the pure derivation tree rooted at an id. -/
def readTree : ℕ → Heap → ℕ → Option DerivationNode
  | 0, _, _ => none
  | fuel + 1, h, i =>
    match h.mem i with
    | none => none
    | some r =>
      match readList fuel h r.children with
      | none => none
      | some ts => some (.node r.symbol ts)
termination_by fuel _ _ => (fuel, 0)

/-- Read the pure derivation trees at a list of ids. -/
def readList : ℕ → Heap → List ℕ → Option (List DerivationNode)
  | _, _, [] => some []
  | fuel, h, i :: rest =>
    match readTree fuel h i with
    | none => none
    | some t =>
      match readList fuel h rest with
      | none => none
      | some ts => some (t :: ts)
termination_by fuel _ l => (fuel, l.length + 1)

end

mutual

/-- Mirrors `clone_tree` (`gggp/variation.py`): children are cloned
first, then the new parent node is constructed (allocated). -/
def cloneTree : ℕ → Heap → ℕ → Option (ℕ × Heap)
  | 0, _, _ => none
  | fuel + 1, h, i =>
    match h.mem i with
    | none => none
    | some r =>
      match cloneList fuel h r.children with
      | none => none
      | some (cs, h') => some (h'.alloc ⟨r.symbol, cs⟩)
termination_by fuel _ _ => (fuel, 0)

/-- Clone each id of a list in order, threading the heap. -/
def cloneList : ℕ → Heap → List ℕ → Option (List ℕ × Heap)
  | _, h, [] => some ([], h)
  | fuel, h, i :: rest =>
    match cloneTree fuel h i with
    | none => none
    | some (j, h') =>
      match cloneList fuel h' rest with
      | none => none
      | some (js, h'') => some (j :: js, h'')
termination_by fuel _ l => (fuel, l.length + 1)

end

mutual

/-- Mirrors `replace_subtree` (`gggp/variation.py`): `root is target`
becomes id equality; a replaced node is a clone of `replacement`, and
every other node is rebuilt fresh. -/
def replaceSubtree : ℕ → Heap → ℕ → ℕ → ℕ → Option (ℕ × Heap)
  | 0, _, _, _, _ => none
  | fuel + 1, h, root, target, replacement =>
    if root = target then cloneTree (fuel + 1) h replacement
    else
      match h.mem root with
      | none => none
      | some r =>
        match replaceList fuel h r.children target replacement with
        | none => none
        | some (cs, h') => some (h'.alloc ⟨r.symbol, cs⟩)
termination_by fuel _ _ _ _ => (fuel, 0)

/-- Replace in each child in order, threading the heap. -/
def replaceList : ℕ → Heap → List ℕ → ℕ → ℕ → Option (List ℕ × Heap)
  | _, h, [], _, _ => some ([], h)
  | fuel, h, i :: rest, target, replacement =>
    match replaceSubtree fuel h i target replacement with
    | none => none
    | some (j, h') =>
      match replaceList fuel h' rest target replacement with
      | none => none
      | some (js, h'') => some (j :: js, h'')
termination_by fuel _ l _ _ => (fuel, l.length + 1)

end

mutual

/-- Mirrors `DerivationNode.traverse` (`gggp/grammar.py`) on the heap:
pre-order list of node ids. -/
def traverseIds : ℕ → Heap → ℕ → Option (List ℕ)
  | 0, _, _ => none
  | fuel + 1, h, i =>
    match h.mem i with
    | none => none
    | some r =>
      match traverseList fuel h r.children with
      | none => none
      | some l => some (i :: l)
termination_by fuel _ _ => (fuel, 0)

/-- Pre-order traversal of a list of roots. -/
def traverseList : ℕ → Heap → List ℕ → Option (List ℕ)
  | _, _, [] => some []
  | fuel, h, i :: rest =>
    match traverseIds fuel h i with
    | none => none
    | some l =>
      match traverseList fuel h rest with
      | none => none
      | some l' => some (l ++ l')
termination_by fuel _ l => (fuel, l.length + 1)

end

mutual

/-- Heap image of constructing a freshly generated pure derivation tree
(`Grammar._expand` builds children before their parent): allocate every
node, children first. -/
def allocTree (h : Heap) : DerivationNode → ℕ × Heap
  | .node sym children =>
    let (cs, h') := allocList h children
    h'.alloc ⟨sym, cs⟩
termination_by t => 2 * dnSize t
decreasing_by all_goals (simp [dnSize, dnSizeList]; try omega)

/-- Allocate each tree of a list in order. -/
def allocList (h : Heap) : List DerivationNode → List ℕ × Heap
  | [] => ([], h)
  | t :: rest =>
    let (j, h') := allocTree h t
    let (js, h'') := allocList h' rest
    (j :: js, h'')
termination_by l => 2 * dnSizeList l + 1
decreasing_by
  all_goals simp [dnSize, dnSizeList]
  all_goals try omega
  all_goals (cases c <;> simp [dnSize, dnSizeList] <;> omega)

end

/-! ## Variation operators over the heap (`gggp/variation.py`) -/

mutual

/-- Mirrors `_metrics` (`gggp/complexity.py`): one bottom-up pass
computing `(node_count, depth, terminal_count)`. -/
def _metrics : DerivationNode → ℕ × ℕ × ℕ
  | .node sym children =>
    match children with
    | [] => (1, 1, if isNonTerminal sym then 0 else 1)
    | c :: cs =>
      let ms := _metricsList (c :: cs)
      (1 + (ms.map (fun m => m.1)).sum,
       1 + (ms.map (fun m => m.2.1)).foldl max 0,
       (ms.map (fun m => m.2.2)).sum)
termination_by t => 2 * dnSize t
decreasing_by all_goals (simp [dnSize, dnSizeList]; try omega)

/-- Metrics of each tree of a list. -/
def _metricsList : List DerivationNode → List (ℕ × ℕ × ℕ)
  | [] => []
  | t :: rest => _metrics t :: _metricsList rest
termination_by l => 2 * dnSizeList l + 1
decreasing_by
  all_goals simp [dnSize, dnSizeList]
  all_goals try omega
  all_goals (cases c <;> simp [dnSize, dnSizeList] <;> omega)

end

/-- Mirrors `compute_metrics` (`gggp/complexity.py`). -/
def compute_metrics (t : DerivationNode) : ComplexityMetrics :=
  ⟨(_metrics t).1, (_metrics t).2.1, (_metrics t).2.2⟩

/-- The structural fields of the `Individual` a variation operator
returns: the id of its derivation tree in the heap, plus the freshly
built expression and complexity snapshot. -/
structure HIndividual where
  derivation : ℕ
  expression : ExpressionNode
  complexity : ComplexityMetrics

/-- Heap-level steps of `crossover` (`gggp/variation.py`): clone both
parents, pick one node id from each clone (`na`, `nb` model the two
`rng.choice` draws), splice B's pick into A's clone at A's pick. -/
def crossoverHeap (h : Heap) (pa pb : ℕ) (fuel na nb : ℕ) : Option (ℕ × Heap) :=
  match cloneTree fuel h pa with
  | none => none
  | some (aId, h1) =>
    match cloneTree fuel h1 pb with
    | none => none
    | some (bId, h2) =>
      match traverseIds fuel h2 aId with
      | none => none
      | some aNodes =>
        match traverseIds fuel h2 bId with
        | none => none
        | some bNodes =>
          replaceSubtree fuel h2 aId (aNodes.getD (na % aNodes.length) 0)
            (bNodes.getD (nb % bNodes.length) 0)

/-- Mirrors `crossover` (`gggp/variation.py`): the child Individual is
rebuilt from the spliced tree — expression via the builder, complexity
via `compute_metrics`; a builder failure propagates. -/
def crossover (h : Heap) (pa pb : ℕ) (fuel na nb : ℕ) :
    Option (Heap × Except BuildErr HIndividual) :=
  match crossoverHeap h pa pb fuel na nb with
  | none => none
  | some (childId, h') =>
    match readTree fuel h' childId with
    | none => none
    | some t =>
      match convert t with
      | .error e => some (h', .error e)
      | .ok e => some (h', .ok ⟨childId, e, compute_metrics t⟩)

/-- Heap-level steps of `mutation` (`gggp/variation.py`): clone the
parent, pick a node id (`nt` models the `rng.choice` draw), generate a
fresh subtree from the grammar and allocate it, then splice it in. -/
def mutationHeap (h : Heap) (p : ℕ) (fuel nt : ℕ) (g : Grammar) (s : ℕ → ℕ)
    (genFuel : ℕ) (max_depth : ℤ) : Option (Except GenErr (ℕ × Heap)) :=
  match cloneTree fuel h p with
  | none => none
  | some (treeId, h1) =>
    match traverseIds fuel h1 treeId with
    | none => none
    | some nodes =>
      match Grammar.generate g s genFuel max_depth with
      | .error e => some (.error e)
      | .ok newSub =>
        match allocTree h1 newSub with
        | (subId, h2) =>
          match replaceSubtree fuel h2 treeId (nodes.getD (nt % nodes.length) 0)
              subId with
          | none => none
          | some (mId, h3) => some (.ok (mId, h3))

/-- Mirrors `mutation` (`gggp/variation.py`): the mutated Individual is
rebuilt from the spliced tree; grammar errors and builder errors
propagate. -/
def mutation (h : Heap) (p : ℕ) (fuel nt : ℕ) (g : Grammar) (s : ℕ → ℕ)
    (genFuel : ℕ) (max_depth : ℤ) :
    Option (Except GenErr (Heap × Except BuildErr HIndividual)) :=
  match mutationHeap h p fuel nt g s genFuel max_depth with
  | none => none
  | some (.error e) => some (.error e)
  | some (.ok (mId, h3)) =>
    match readTree fuel h3 mId with
    | none => none
    | some t =>
      match convert t with
      | .error e => some (.ok (h3, .error e))
      | .ok e => some (.ok (h3, .ok ⟨mId, e, compute_metrics t⟩))

/-- Result of an allocating tree operation: the heap only grew, stays
well-formed and closed, and the produced root reaches only freshly
allocated ids. -/
def FreshTree (h h' : Heap) (j : ℕ) : Prop :=
  heapExtends h h' ∧ h'.wf ∧ h'.closed ∧ h.next ≤ j ∧ (h'.mem j).isSome = true ∧
    ∀ x, Reach h' j x → h.next ≤ x

/-- List version of `FreshTree`. -/
def FreshList (h h' : Heap) (js : List ℕ) : Prop :=
  heapExtends h h' ∧ h'.wf ∧ h'.closed ∧
    ∀ j ∈ js, h.next ≤ j ∧ (h'.mem j).isSome = true ∧ ∀ x, Reach h' j x → h.next ≤ x

/-- A concrete two-node heap: two unrelated leaf nodes `x` (id 0) and
`y` (id 1), used to instantiate the variation theorems. -/
def sampleHeap : Heap :=
  ⟨2, fun i => if i = 0 then some ⟨"x", []⟩ else if i = 1 then some ⟨"y", []⟩ else none⟩

/-- The crossover run on `sampleHeap` used by the witness. -/
def crossResult : Heap × Except BuildErr HIndividual :=
  (crossover sampleHeap 0 1 3 0 0).getD (sampleHeap, .error .valueError)

/-- The mutation run on `sampleHeap` used by the witness. -/
def mutResult : Heap × Except BuildErr HIndividual :=
  (((mutation sampleHeap 0 3 0 demoGrammar (fun _ => 0) 3 1).getD
    (.error .valueError)).toOption).getD (sampleHeap, .error .valueError)

/-! ## Helper lemmas: complexity order and fitness comparisons -/

theorem cmLt_iff (a b : ComplexityMetrics) :
    cmLt a b = true ↔
      (a.node_count < b.node_count ∨
        (a.node_count = b.node_count ∧
          (a.depth < b.depth ∨ (a.depth = b.depth ∧ a.terminal_count < b.terminal_count)))) := by
  unfold cmLt
  split_ifs with h1 h2 <;> simp <;> omega

theorem cmLe_iff (a b : ComplexityMetrics) :
    cmLe a b = true ↔
      (a.node_count < b.node_count ∨
        (a.node_count = b.node_count ∧
          (a.depth < b.depth ∨ (a.depth = b.depth ∧ a.terminal_count ≤ b.terminal_count)))) := by
  unfold cmLe
  split_ifs with h1 h2 <;> simp <;> omega

theorem cmLe_of_cmLt {a b : ComplexityMetrics} (h : cmLt a b = true) : cmLe a b = true := by
  rw [cmLt_iff] at h
  rw [cmLe_iff]
  omega

theorem cmLe_eq_false_of_cmLt {a b : ComplexityMetrics} (h : cmLt b a = true) :
    cmLe a b = false := by
  rw [cmLt_iff] at h
  rw [← Bool.not_eq_true, cmLe_iff]
  omega

/-! ## Helper lemmas: fitness evaluation -/

/-- Squared errors of an expression over a case list, reading each term
off the (assumed successful) per-case evaluation. -/
def sqErrs (e : ExpressionNode) (cases : List FitnessCase) : List ℚ :=
  cases.map fun c =>
    match e.evaluate c.inputs with
    | .ok v => (v - c.target) ^ 2
    | .error _ => 0

theorem evalExprGo_ok (e : ExpressionNode) :
    ∀ (cases : List FitnessCase) (errs : List ℚ),
      (∀ c ∈ cases, ∃ v, e.evaluate c.inputs = .ok v) →
      evalExprGo e cases errs =
        .fin (-((errs ++ sqErrs e cases).sum / ((errs ++ sqErrs e cases).length : ℚ))) := by
  intro cases
  induction cases with
  | nil => intro errs _; simp [evalExprGo, sqErrs]
  | cons c rest ih =>
    intro errs h
    obtain ⟨v, hv⟩ := h c (by simp)
    have hrest : ∀ c' ∈ rest, ∃ v, e.evaluate c'.inputs = .ok v := by
      intro c' hc'; exact h c' (by simp [hc'])
    simp only [evalExprGo, hv]
    rw [ih (errs ++ [(v - c.target) ^ 2]) hrest]
    simp [sqErrs, hv]

theorem evalExprGo_err (e : ExpressionNode) :
    ∀ (cases : List FitnessCase) (errs : List ℚ),
      (∃ c ∈ cases, ∃ err, e.evaluate c.inputs = .error err) →
      evalExprGo e cases errs = .ninf := by
  intro cases
  induction cases with
  | nil => intro errs h; simp at h
  | cons c rest ih =>
    intro errs h
    rcases h with ⟨c', hc', err, herr⟩
    rcases List.mem_cons.mp hc' with rfl | hmem
    · simp [evalExprGo, herr]
    · cases hev : e.evaluate c.inputs with
      | error e' => simp [evalExprGo, hev]
      | ok v =>
        simp only [evalExprGo, hev]
        exact ih _ ⟨c', hmem, err, herr⟩

/-! ## Claim theorems: fitness evaluation -/

/-- C1: when an individual's expression evaluates without error on every
fitness case, `FitnessEvaluator.evaluate` stores the negated mean
squared error as `raw_fitness`, stores `raw_fitness` minus
`penalty_coefficient * node_count` as `adjusted_fitness`, and returns
the adjusted value. -/
theorem evaluate_sets_neg_mse_and_penalty (ev : FitnessEvaluator) (ind : Individual)
    (_hne : ev.cases ≠ [])
    (hok : ∀ c ∈ ev.cases, ∃ v, ind.expression.evaluate c.inputs = .ok v) :
    (ev.evaluate ind).1.raw_fitness = some (.fin (-(specMse ind.expression ev.cases))) ∧
    (ev.evaluate ind).1.adjusted_fitness =
      some (.fin (-(specMse ind.expression ev.cases) -
        ev.penalty_coefficient * (ind.complexity.node_count : ℚ))) ∧
    (ev.evaluate ind).2 =
      .fin (-(specMse ind.expression ev.cases) -
        ev.penalty_coefficient * (ind.complexity.node_count : ℚ)) := by
  have hgo := evalExprGo_ok ind.expression ev.cases [] hok
  have hmse : FitnessEvaluator.evaluate_expression ev ind.expression =
      .fin (-(specMse ind.expression ev.cases)) := by
    rw [FitnessEvaluator.evaluate_expression, hgo]
    simp [specMse, sqErrs]
  refine ⟨?_, ?_, ?_⟩ <;>
    simp [FitnessEvaluator.evaluate, hmse, FitVal.subPenalty, ComplexityMetrics.scalar]

/-- Closed-form instantiation of C1's theorem: a single fitness case,
constant expression `2`, target `1`, penalty coefficient `1`,
node count `3`. -/
theorem evaluate_sets_neg_mse_and_penalty_witness :
    (FitnessEvaluator.evaluate ⟨[⟨[], 1⟩], 1⟩
        ⟨.mk "constant" "2" [], ⟨3, 2, 1⟩, none, none⟩).1.raw_fitness =
      some (.fin (-(specMse (.mk "constant" "2" []) [⟨[], 1⟩]))) ∧
    (FitnessEvaluator.evaluate ⟨[⟨[], 1⟩], 1⟩
        ⟨.mk "constant" "2" [], ⟨3, 2, 1⟩, none, none⟩).1.adjusted_fitness =
      some (.fin (-(specMse (.mk "constant" "2" []) [⟨[], 1⟩]) -
        1 * ((3 : ℕ) : ℚ))) ∧
    (FitnessEvaluator.evaluate ⟨[⟨[], 1⟩], 1⟩
        ⟨.mk "constant" "2" [], ⟨3, 2, 1⟩, none, none⟩).2 =
      .fin (-(specMse (.mk "constant" "2" []) [⟨[], 1⟩]) - 1 * ((3 : ℕ) : ℚ)) := by
  exact evaluate_sets_neg_mse_and_penalty ⟨[⟨[], 1⟩], 1⟩
    ⟨.mk "constant" "2" [], ⟨3, 2, 1⟩, none, none⟩
    (by simp)
    (by
      intro c hc
      simp only [List.mem_singleton] at hc
      subst hc
      exact ⟨2, rfl⟩)

/-- C2: if evaluating the expression raises on any single case, the
whole expression scores `-inf`; no exception escapes (the embedded
scorer is a total function into `FitVal`). -/
theorem evaluate_expression_ninf_on_any_error (ev : FitnessEvaluator) (e : ExpressionNode)
    (hfail : ∃ c ∈ ev.cases, ∃ err, e.evaluate c.inputs = .error err) :
    ev.evaluate_expression e = .ninf := by
  exact evalExprGo_err e ev.cases [] hfail

/-- Closed-form instantiation of C2's theorem: the second of two cases
is missing the variable binding, so the score is `-inf` even though the
first case evaluates fine. -/
theorem evaluate_expression_ninf_on_any_error_witness :
    FitnessEvaluator.evaluate_expression ⟨[⟨[("x", 1)], 1⟩, ⟨[], 0⟩], 0⟩
      (.mk "variable" "x" []) = .ninf := by
  exact evaluate_expression_ninf_on_any_error ⟨[⟨[("x", 1)], 1⟩, ⟨[], 0⟩], 0⟩
    (.mk "variable" "x" [])
    ⟨⟨[], 0⟩, by simp, .keyError, rfl⟩

/-! ## Claim theorems: selection -/

/-- C3: `prefer_fittest` with both fitness fields set returns the
strictly fitter individual when the fitness difference exceeds the
tolerance in magnitude (including the cases where exactly one score is
the `-inf` sentinel, where the difference is infinite); within the
tolerance band (including the `-inf`/`-inf` tie, whose difference is
NaN and compares inside the band) it returns the individual whose
complexity metrics are lexicographically strictly smaller; it fails
when either individual is unevaluated. -/
theorem prefer_fittest_spec (a b : Individual) (t : ℚ) (ht : 0 ≤ t) :
    ((a.adjusted_fitness = none ∨ b.adjusted_fitness = none) →
      prefer_fittest a b t = .error .unevaluated) ∧
    (∀ qa qb, a.adjusted_fitness = some (.fin qa) → b.adjusted_fitness = some (.fin qb) →
      (t < |qa - qb| → prefer_fittest a b t = .ok (if qb < qa then a else b)) ∧
      (|qa - qb| ≤ t →
        (cmLt a.complexity b.complexity = true → prefer_fittest a b t = .ok a) ∧
        (cmLt b.complexity a.complexity = true → prefer_fittest a b t = .ok b))) ∧
    (∀ qa, a.adjusted_fitness = some (.fin qa) → b.adjusted_fitness = some .ninf →
      prefer_fittest a b t = .ok a) ∧
    (∀ qb, a.adjusted_fitness = some .ninf → b.adjusted_fitness = some (.fin qb) →
      prefer_fittest a b t = .ok b) ∧
    (a.adjusted_fitness = some .ninf → b.adjusted_fitness = some .ninf →
      (cmLt a.complexity b.complexity = true → prefer_fittest a b t = .ok a) ∧
      (cmLt b.complexity a.complexity = true → prefer_fittest a b t = .ok b)) := by
  refine ⟨?_, ?_, ?_, ?_, ?_⟩
  · rintro (h | h) <;> simp [prefer_fittest, h] <;>
      cases hb : a.adjusted_fitness <;> simp
  · intro qa qb ha hb
    constructor
    · intro hgt
      rcases abs_cases (qa - qb) with ⟨habs, _⟩ | ⟨habs, _⟩
      · have h1 : qa - qb > t := by rw [← habs]; exact hgt
        have hlt : qb < qa := by linarith
        simp [prefer_fittest, ha, hb, fvDiffGt, h1, hlt]
      · have h1 : qa - qb < -t := by
          have := habs ▸ hgt
          linarith
        have h2 : ¬ (qa - qb > t) := by linarith
        have hlt : ¬ (qb < qa) := by linarith
        simp [prefer_fittest, ha, hb, fvDiffGt, fvDiffLtNeg, h1, h2, hlt]
    · intro hband
      have h1 : ¬ (qa - qb > t) := by
        intro hc
        have := le_abs_self (qa - qb)
        linarith
      have h2 : ¬ (qa - qb < -t) := by
        intro hc
        have := neg_abs_le (qa - qb)
        linarith
      constructor
      · intro hlt
        simp [prefer_fittest, ha, hb, fvDiffGt, fvDiffLtNeg, h1, h2, cmLe_of_cmLt hlt]
      · intro hlt
        simp [prefer_fittest, ha, hb, fvDiffGt, fvDiffLtNeg, h1, h2, cmLe_eq_false_of_cmLt hlt]
  · intro qa ha hb
    simp [prefer_fittest, ha, hb, fvDiffGt]
  · intro qb ha hb
    simp [prefer_fittest, ha, hb, fvDiffGt, fvDiffLtNeg]
  · intro ha hb
    constructor
    · intro hlt
      simp [prefer_fittest, ha, hb, fvDiffGt, fvDiffLtNeg, cmLe_of_cmLt hlt]
    · intro hlt
      simp [prefer_fittest, ha, hb, fvDiffGt, fvDiffLtNeg, cmLe_eq_false_of_cmLt hlt]

/-- Closed-form instantiation of C3's theorem: outside the band the
fitter individual wins, and in an exact tie the smaller complexity
wins. -/
theorem prefer_fittest_spec_witness :
    (prefer_fittest ⟨.mk "constant" "1" [], ⟨2, 2, 1⟩, none, some (.fin 5)⟩
        ⟨.mk "constant" "1" [], ⟨1, 1, 1⟩, none, some (.fin 3)⟩ 1 =
      .ok (if (3 : ℚ) < 5 then
        ⟨.mk "constant" "1" [], ⟨2, 2, 1⟩, none, some (.fin 5)⟩ else
        ⟨.mk "constant" "1" [], ⟨1, 1, 1⟩, none, some (.fin 3)⟩)) ∧
    (prefer_fittest ⟨.mk "constant" "1" [], ⟨2, 2, 1⟩, none, some (.fin 3)⟩
        ⟨.mk "constant" "1" [], ⟨1, 1, 1⟩, none, some (.fin 3)⟩ 1 =
      .ok ⟨.mk "constant" "1" [], ⟨1, 1, 1⟩, none, some (.fin 3)⟩) := by
  constructor
  · exact (((prefer_fittest_spec
      ⟨.mk "constant" "1" [], ⟨2, 2, 1⟩, none, some (.fin 5)⟩
      ⟨.mk "constant" "1" [], ⟨1, 1, 1⟩, none, some (.fin 3)⟩ 1 (by norm_num)).2.1
        5 3 rfl rfl).1 (by norm_num))
  · exact ((((prefer_fittest_spec
      ⟨.mk "constant" "1" [], ⟨2, 2, 1⟩, none, some (.fin 3)⟩
      ⟨.mk "constant" "1" [], ⟨1, 1, 1⟩, none, some (.fin 3)⟩ 1 (by norm_num)).2.1
        3 3 rfl rfl).2 (by norm_num)).2 (by decide))

/-! ## Helper lemmas: population best -/

theorem fvGtB_irrefl (x : FitVal) : fvGtB x x = false := by
  cases x <;> simp [fvGtB]

theorem fvGtB_ff_trans {y c b : FitVal} (h1 : fvGtB y c = false) (h2 : fvGtB c b = false) :
    fvGtB y b = false := by
  cases y <;> cases c <;> cases b <;> simp_all [fvGtB] <;> linarith

theorem fvGtB_tf_trans {y c b : FitVal} (h1 : fvGtB y c = true) (h2 : fvGtB y b = false) :
    fvGtB c b = false := by
  cases y <;> cases c <;> cases b <;> simp_all [fvGtB] <;> linarith

theorem bestGo_max :
    ∀ (rest : List Individual) (cur : Individual) (cv : FitVal),
      cur.adjusted_fitness = some cv →
      (∀ i ∈ rest, ∃ v, i.adjusted_fitness = some v) →
      ∃ best, bestGo cur rest = .ok best ∧ (best = cur ∨ best ∈ rest) ∧
        (∃ bv, best.adjusted_fitness = some bv) ∧
        keyGt cur.adjusted_fitness best.adjusted_fitness = .ok false ∧
        ∀ i ∈ rest, keyGt i.adjusted_fitness best.adjusted_fitness = .ok false := by
  intro rest
  induction rest with
  | nil =>
    intro cur cv hcv _
    exact ⟨cur, rfl, Or.inl rfl, ⟨cv, hcv⟩, by simp [keyGt, hcv, fvGtB_irrefl], by simp⟩
  | cons y ys ih =>
    intro cur cv hcv hall
    obtain ⟨yv, hyv⟩ := hall y (by simp)
    have hys : ∀ i ∈ ys, ∃ v, i.adjusted_fitness = some v := by
      intro i hi; exact hall i (by simp [hi])
    cases hgb : fvGtB yv cv with
    | true =>
      obtain ⟨best, hrun, hmem, ⟨bv, hbv⟩, hcb, hrest⟩ := ih y yv hyv hys
      refine ⟨best, ?_, ?_, ⟨bv, hbv⟩, ?_, ?_⟩
      · simp [bestGo, keyGt, hcv, hyv, hgb, hrun]
      · rcases hmem with rfl | hmem'
        · simp
        · simp [hmem']
      · rw [hyv, hbv] at hcb
        rw [hcv, hbv]
        simp only [keyGt, Except.ok.injEq] at hcb ⊢
        exact fvGtB_tf_trans hgb hcb
      · intro i hi
        rcases List.mem_cons.mp hi with rfl | hmem'
        · exact hcb
        · exact hrest i hmem'
    | false =>
      obtain ⟨best, hrun, hmem, ⟨bv, hbv⟩, hcb, hrest⟩ := ih cur cv hcv hys
      refine ⟨best, ?_, ?_, ⟨bv, hbv⟩, hcb, ?_⟩
      · simp [bestGo, keyGt, hcv, hyv, hgb, hrun]
      · rcases hmem with rfl | hmem'
        · simp
        · simp [hmem']
      · intro i hi
        rcases List.mem_cons.mp hi with rfl | hmem'
        · rw [hyv, hbv]
          rw [hcv, hbv] at hcb
          simp only [keyGt, Except.ok.injEq] at hcb ⊢
          exact fvGtB_ff_trans hgb hcb
        · exact hrest i hmem' 

theorem bestGo_err :
    ∀ (rest : List Individual) (cur : Individual),
      (∃ i ∈ rest, i.adjusted_fitness = none) →
      bestGo cur rest = .error .typeError := by
  intro rest
  induction rest with
  | nil => intro cur h; simp at h
  | cons y ys ih =>
    intro cur h
    cases hy : y.adjusted_fitness with
    | none => simp [bestGo, keyGt, hy]
    | some yv =>
      have hmem : ∃ i ∈ ys, i.adjusted_fitness = none := by
        rcases h with ⟨i, hi, hnone⟩
        rcases List.mem_cons.mp hi with rfl | hin
        · rw [hy] at hnone; exact absurd hnone (by simp)
        · exact ⟨i, hin, hnone⟩
      cases hc : cur.adjusted_fitness with
      | none => simp [bestGo, keyGt, hy, hc]
      | some cv =>
        simp only [bestGo, keyGt, hy, hc]
        cases fvGtB yv cv <;> simp [ih _ hmem]

/-! ## Claim theorems: population best -/

/-- C8 counterexample: a singleton population whose only individual has
an unset `adjusted_fitness` does not fail — Python's `max` performs no
comparison on a single element and returns it. -/
theorem populationBest_singleton_unscored_ok :
    populationBest [⟨.mk "constant" "1" [], ⟨1, 1, 1⟩, none, none⟩] =
      .ok ⟨.mk "constant" "1" [], ⟨1, 1, 1⟩, none, none⟩ := rfl

/-- C8 (amended): on a non-empty population in which every individual
has been evaluated, `best()` returns a member individual that no
member's adjusted fitness strictly exceeds; it fails with a `TypeError`
whenever the population has at least two individuals and any individual
has an unset `adjusted_fitness` (a singleton population is returned
unconditionally). -/
theorem populationBest_spec (inds : List Individual) :
    (inds ≠ [] → (∀ i ∈ inds, ∃ v, i.adjusted_fitness = some v) →
      ∃ best, populationBest inds = .ok best ∧ best ∈ inds ∧
        ∀ i ∈ inds, keyGt i.adjusted_fitness best.adjusted_fitness = .ok false) ∧
    (2 ≤ inds.length → (∃ i ∈ inds, i.adjusted_fitness = none) →
      populationBest inds = .error .typeError) := by
  constructor
  · intro hne hall
    match inds with
    | [] => exact absurd rfl hne
    | x :: rest =>
      obtain ⟨cv, hcv⟩ := hall x (by simp)
      have hrest : ∀ i ∈ rest, ∃ v, i.adjusted_fitness = some v := by
        intro i hi; exact hall i (by simp [hi])
      obtain ⟨best, hrun, hmem, _, hcb, hr⟩ := bestGo_max rest x cv hcv hrest
      refine ⟨best, hrun, ?_, ?_⟩
      · rcases hmem with rfl | hmem'
        · simp
        · simp [hmem']
      · intro i hi
        rcases List.mem_cons.mp hi with rfl | hmem'
        · exact hcb
        · exact hr i hmem'
  · intro hlen hnone
    match inds with
    | [] => simp at hlen
    | [x] => simp at hlen
    | x :: y :: ys =>
      cases hx : x.adjusted_fitness with
      | none =>
        cases hy : y.adjusted_fitness with
        | none => simp [populationBest, bestGo, keyGt, hx, hy]
        | some yv => simp [populationBest, bestGo, keyGt, hx, hy]
      | some xv =>
        have hmem : ∃ i ∈ y :: ys, i.adjusted_fitness = none := by
          rcases hnone with ⟨i, hi, hn⟩
          rcases List.mem_cons.mp hi with rfl | hin
          · rw [hx] at hn; exact absurd hn (by simp)
          · exact ⟨i, hin, hn⟩
        exact bestGo_err (y :: ys) x hmem

/-- Closed-form instantiation of C8's amended theorem: a two-element
fully-scored population yields a maximum, and a two-element population
with one unscored member raises a `TypeError`. -/
theorem populationBest_spec_witness :
    (∃ best, populationBest [sampleScoredA, sampleScoredB] = .ok best ∧
      best ∈ [sampleScoredA, sampleScoredB] ∧
      ∀ i ∈ [sampleScoredA, sampleScoredB],
        keyGt i.adjusted_fitness best.adjusted_fitness = .ok false) ∧
    populationBest [sampleScoredA, sampleUnscored] = .error .typeError := by
  constructor
  · exact (populationBest_spec [sampleScoredA, sampleScoredB]).1 (by simp) (by
      intro i hi
      rcases List.mem_cons.mp hi with rfl | hi'
      · exact ⟨.fin 1, rfl⟩
      · rcases List.mem_cons.mp hi' with rfl | hi''
        · exact ⟨.fin 2, rfl⟩
        · simp at hi'')
  · exact (populationBest_spec [sampleScoredA, sampleUnscored]).2 (by simp)
      ⟨sampleUnscored, by simp, rfl⟩

/-! ## Helper lemmas: grammar expansion -/

theorem getD_mod_mem {α : Type} (l : List α) (n : ℕ) (d : α) (hne : l ≠ []) :
    l.getD (n % l.length) d ∈ l := by
  have hlen : 0 < l.length := List.length_pos.mpr hne
  have hlt : n % l.length < l.length := Nat.mod_lt _ hlen
  rw [List.getD_eq_getElem l d hlt]
  exact List.getElem_mem hlt

theorem eligible_productions_ne_nil (symbol : String) (productions : List Production)
    (depth max_depth : ℤ) (hne : productions ≠ []) :
    eligible_productions symbol productions depth max_depth ≠ [] := by
  unfold eligible_productions
  split_ifs with h1 h2 h3
  · exact hne
  · exact h2
  · exact h3
  · exact hne

/-! ## Claim theorems: grammar expansion policy and errors -/

/-- C4: below `max_depth` all of a symbol's productions are eligible; at
or beyond `max_depth` the terminal-only productions are preferred, then
the non-self-recursive ones, then all productions as a fallback; and a
successful expansion of a non-terminal uses a production drawn from the
eligible subset. -/
theorem eligible_productions_spec (g : Grammar) (s : ℕ → ℕ) (symbol : String)
    (productions : List Production) (depth max_depth : ℤ) :
    (depth < max_depth →
      eligible_productions symbol productions depth max_depth = productions) ∧
    (max_depth ≤ depth →
      (productions.filter (fun prod => prod.is_terminal_only) ≠ [] →
        eligible_productions symbol productions depth max_depth =
          productions.filter (fun prod => prod.is_terminal_only)) ∧
      (productions.filter (fun prod => prod.is_terminal_only) = [] →
        productions.filter (fun prod => !prod.is_self_recursive symbol) ≠ [] →
        eligible_productions symbol productions depth max_depth =
          productions.filter (fun prod => !prod.is_self_recursive symbol)) ∧
      (productions.filter (fun prod => prod.is_terminal_only) = [] →
        productions.filter (fun prod => !prod.is_self_recursive symbol) = [] →
        eligible_productions symbol productions depth max_depth = productions)) ∧
    (∀ fuel k tree k', isNonTerminal symbol = true →
      Grammar.expand g s (fuel + 1) symbol depth max_depth k = .ok (tree, k') →
      ∃ p ∈ eligible_productions symbol (g.productions_for symbol) depth max_depth,
        ∃ children, tree = .node symbol children ∧
          Grammar.expandTokens g s fuel p.expansion (depth + 1) max_depth (k + 1) =
            .ok (children, k')) := by
  refine ⟨?_, ?_, ?_⟩
  · intro h
    unfold eligible_productions
    rw [if_pos h]
  · intro h
    have hnlt : ¬ (depth < max_depth) := not_lt.mpr h
    refine ⟨?_, ?_, ?_⟩
    · intro h1
      simp [eligible_productions, hnlt, h1]
    · intro h1 h2
      simp [eligible_productions, hnlt, h1, h2]
    · intro h1 h2
      simp [eligible_productions, hnlt, h1, h2]
  · intro fuel k tree k' hnt hrun
    by_cases hp : g.productions_for symbol = []
    · simp [Grammar.expand, hnt, hp] at hrun
    · have hne := eligible_productions_ne_nil symbol (g.productions_for symbol)
        depth max_depth hp
      simp only [Grammar.expand, hnt, if_pos rfl, if_true, hp, if_neg hp, if_false] at hrun
      refine ⟨(eligible_productions symbol (g.productions_for symbol) depth
          max_depth).getD
          (s k % (eligible_productions symbol (g.productions_for symbol) depth
            max_depth).length) ⟨[]⟩,
        getD_mod_mem _ _ _ hne, ?_⟩
      cases hm : Grammar.expandTokens g s fuel
          ((eligible_productions symbol (g.productions_for symbol) depth
            max_depth).getD
            (s k % (eligible_productions symbol (g.productions_for symbol) depth
              max_depth).length) ⟨[]⟩).expansion (depth + 1) max_depth (k + 1) with
      | error e => rw [hm] at hrun; simp at hrun
      | ok res =>
        obtain ⟨children, k''⟩ := res
        rw [hm] at hrun
        simp only [Except.ok.injEq, Prod.mk.injEq] at hrun
        refine ⟨children, hrun.1.symm, ?_⟩
        rw [hrun.2]

/-- Closed-form instantiation of C4's theorem: below the depth limit
all productions are eligible, and a concrete expansion of `<e>` uses
its (only) eligible production. -/
theorem eligible_productions_spec_witness :
    (eligible_productions "<e>" [⟨["a"]⟩] 0 1 = [⟨["a"]⟩]) ∧
    (∃ p ∈ eligible_productions "<e>" (demoGrammar.productions_for "<e>") 0 1,
      ∃ children, (DerivationNode.node "<e>" [.node "a" []]) = .node "<e>" children ∧
        Grammar.expandTokens demoGrammar (fun _ => 0) 1 p.expansion 1 1 1 =
          .ok (children, 1)) := by
  constructor
  · exact (eligible_productions_spec demoGrammar (fun _ => 0) "<e>" [⟨["a"]⟩] 0 1).1
      (by norm_num)
  · exact (eligible_productions_spec demoGrammar (fun _ => 0) "<e>" [⟨["a"]⟩] 0 1).2.2
      1 0 (.node "<e>" [.node "a" []]) 1 (by decide)
      (by simp [Grammar.expand, Grammar.expandTokens, eligible_productions,
        Grammar.productions_for, demoGrammar, isNonTerminal, lastChar])

/-- C5: `generate` rejects `max_depth < 1` with a `ValueError`;
expansion of a non-terminal with no registered productions fails with a
`GrammarError`; a terminal symbol expands to an immediate leaf. -/
theorem generate_and_expand_errors (g : Grammar) (s : ℕ → ℕ) :
    (∀ fuel max_depth, max_depth < 1 →
      Grammar.generate g s fuel max_depth = .error .valueError) ∧
    (∀ fuel symbol depth max_depth k, isNonTerminal symbol = true →
      g.productions_for symbol = [] →
      Grammar.expand g s (fuel + 1) symbol depth max_depth k = .error .grammarError) ∧
    (∀ fuel symbol depth max_depth k, isNonTerminal symbol = false →
      Grammar.expand g s (fuel + 1) symbol depth max_depth k = .ok (.node symbol [], k)) := by
  refine ⟨?_, ?_, ?_⟩
  · intro fuel max_depth h
    simp [Grammar.generate, h]
  · intro fuel symbol depth max_depth k hnt hp
    simp [Grammar.expand, hnt, hp]
  · intro fuel symbol depth max_depth k hnt
    simp [Grammar.expand, hnt]

/-- Closed-form instantiation of C5's theorem: `max_depth = 0` is
rejected, an unregistered non-terminal fails, and a terminal becomes a
leaf. -/
theorem generate_and_expand_errors_witness :
    (Grammar.generate demoGrammar (fun _ => 0) 5 0 = .error .valueError) ∧
    (Grammar.expand demoGrammar (fun _ => 0) 1 "<missing>" 0 1 0 = .error .grammarError) ∧
    (Grammar.expand demoGrammar (fun _ => 0) 1 "a" 0 1 0 = .ok (.node "a" [], 0)) := by
  refine ⟨?_, ?_, ?_⟩
  · exact (generate_and_expand_errors demoGrammar (fun _ => 0)).1 5 0 (by norm_num)
  · exact (generate_and_expand_errors demoGrammar (fun _ => 0)).2.1 0 "<missing>" 0 1 0
      (by decide) (by decide)
  · exact (generate_and_expand_errors demoGrammar (fun _ => 0)).2.2 0 "a" 0 1 0 (by decide)

/-! ## Helper lemmas: derivation-tree induction and the builder -/

theorem dnSize_pos (t : DerivationNode) : 1 ≤ dnSize t := by
  cases t with
  | node sym children => simp [dnSize]

theorem dnSize_le_of_mem {c : DerivationNode} :
    ∀ {children : List DerivationNode}, c ∈ children → dnSize c ≤ dnSizeList children := by
  intro children
  induction children with
  | nil => intro h; simp at h
  | cons x rest ih =>
    intro h
    rcases List.mem_cons.mp h with rfl | hmem
    · simp [dnSizeList]
    · have := ih hmem
      simp [dnSizeList]
      omega

theorem dnSize_child_lt {c : DerivationNode} {sym : String}
    {children : List DerivationNode} (h : c ∈ children) :
    dnSize c < dnSize (.node sym children) := by
  have := dnSize_le_of_mem h
  simp [dnSize]
  omega

theorem derivation_induction {motive : DerivationNode → Prop}
    (h : ∀ sym children, (∀ c ∈ children, motive c) → motive (.node sym children))
    (t : DerivationNode) : motive t := by
  have key : ∀ n t, dnSize t ≤ n → motive t := by
    intro n
    induction n with
    | zero =>
      intro t hle
      have := dnSize_pos t
      omega
    | succ n ih =>
      intro t hle
      cases t with
      | node sym children =>
        apply h
        intro c hc
        apply ih
        have := @dnSize_child_lt c sym children hc
        omega
  exact key (dnSize t) t le_rfl

theorem extractToken_ok_iff (t : DerivationNode) :
    (∃ tok, extractToken t = .ok tok) ↔ TokenSource t := by
  induction t using derivation_induction with
  | h sym children ih =>
    cases children with
    | nil =>
      cases hnt : isNonTerminal sym with
      | false =>
        constructor
        · intro _; exact TokenSource.leaf sym hnt
        · intro _; exact ⟨sym, by simp [extractToken, hnt]⟩
      | true =>
        constructor
        · rintro ⟨tok, htok⟩
          simp [extractToken, hnt] at htok
        · intro hts
          cases hts with
          | leaf _ h' => rw [hnt] at h'; exact absurd h' (by simp)
    | cons c rest =>
      have hc := ih c (by simp)
      constructor
      · rintro ⟨tok, htok⟩
        have : extractToken c = .ok tok := by
          simpa [extractToken] using htok
        exact TokenSource.step sym c rest (hc.mp ⟨tok, this⟩)
      · intro hts
        cases hts with
        | step _ _ _ hts' =>
          obtain ⟨tok, htok⟩ := hc.mpr hts'
          exact ⟨tok, by simp [extractToken, htok]⟩

theorem convertExpr_nil : convertExpr [] = .error .valueError := by
  rw [convertExpr]

theorem convertExpr_cons (c : DerivationNode) (rest : List DerivationNode) :
    convertExpr (c :: rest) = convert c := by
  rw [convertExpr]

theorem convertOperation_three (a b c : DerivationNode) :
    convertOperation [a, b, c] =
      (match extractToken a with
       | .error e => .error e
       | .ok token =>
         match convert b with
         | .error e => .error e
         | .ok le =>
           match convert c with
           | .error e => .error e
           | .ok re => .ok (.mk "operator" token [le, re])) := by
  rw [convertOperation]

theorem convertOperation_nil : convertOperation [] = .error .valueError := by
  rw [convertOperation]
  all_goals simp

theorem convertOperation_one (a : DerivationNode) :
    convertOperation [a] = .error .valueError := by
  rw [convertOperation]
  all_goals simp

theorem convertOperation_two (a b : DerivationNode) :
    convertOperation [a, b] = .error .valueError := by
  rw [convertOperation]
  all_goals simp

theorem convertOperation_four (a b c d : DerivationNode) (rest : List DerivationNode) :
    convertOperation (a :: b :: c :: d :: rest) = .error .valueError := by
  rw [convertOperation]
  all_goals simp

theorem convertVar_nil : convertVar [] = .error .indexError := by
  rw [convertVar]

theorem convertVar_cons (c : DerivationNode) (rest : List DerivationNode) :
    convertVar (c :: rest) =
      (match extractToken c with
       | .error e => .error e
       | .ok token => .ok (.mk "variable" token [])) := by
  rw [convertVar]

theorem convertConst_nil : convertConst [] = .error .indexError := by
  rw [convertConst]

theorem convertConst_cons (c : DerivationNode) (rest : List DerivationNode) :
    convertConst (c :: rest) =
      (match extractToken c with
       | .error e => .error e
       | .ok token => .ok (.mk "constant" token [])) := by
  rw [convertConst]

theorem convertOp_nil : convertOp [] = .error .indexError := by
  rw [convertOp]

theorem convertOp_cons (c : DerivationNode) (rest : List DerivationNode) :
    convertOp (c :: rest) =
      (match extractToken c with
       | .error e => .error e
       | .ok token => .ok (.mk "operator-token" token [])) := by
  rw [convertOp]

theorem convertPass_one (c : DerivationNode) : convertPass [c] = convert c := by
  rw [convertPass]

theorem convertPass_nil : convertPass [] = .error .valueError := by
  rw [convertPass]
  all_goals simp

theorem convertPass_many (c d : DerivationNode) (rest : List DerivationNode) :
    convertPass (c :: d :: rest) = .error .valueError := by
  rw [convertPass]
  all_goals simp

theorem convert_node (sym : String) (children : List DerivationNode) :
    convert (.node sym children) =
      (if sym = "<expr>" then convertExpr children
       else if sym = "<operation>" then convertOperation children
       else if sym = "<var>" then convertVar children
       else if sym = "<const>" then convertConst children
       else if sym = "<op>" then convertOp children
       else if !isNonTerminal sym then .ok (.mk "literal" sym [])
       else convertPass children) := by
  rw [convert]

theorem convert_expr_sym (children : List DerivationNode) :
    convert (.node "<expr>" children) = convertExpr children := by
  rw [convert_node]
  simp

theorem convert_operation_sym (children : List DerivationNode) :
    convert (.node "<operation>" children) = convertOperation children := by
  rw [convert_node]
  simp

theorem convert_var_sym (children : List DerivationNode) :
    convert (.node "<var>" children) = convertVar children := by
  rw [convert_node]
  simp

theorem convert_const_sym (children : List DerivationNode) :
    convert (.node "<const>" children) = convertConst children := by
  rw [convert_node]
  simp

theorem convert_op_sym (children : List DerivationNode) :
    convert (.node "<op>" children) = convertOp children := by
  rw [convert_node]
  simp

theorem ne_known_of_terminal {sym : String} (hnt : isNonTerminal sym = false) :
    sym ≠ "<expr>" ∧ sym ≠ "<operation>" ∧ sym ≠ "<var>" ∧ sym ≠ "<const>" ∧
      sym ≠ "<op>" := by
  refine ⟨?_, ?_, ?_, ?_, ?_⟩ <;>
    (intro h; subst h; exact absurd hnt (by decide))

theorem convert_literal (sym : String) (children : List DerivationNode)
    (hnt : isNonTerminal sym = false) :
    convert (.node sym children) = .ok (.mk "literal" sym []) := by
  obtain ⟨h1, h2, h3, h4, h5⟩ := ne_known_of_terminal hnt
  rw [convert_node, if_neg h1, if_neg h2, if_neg h3, if_neg h4, if_neg h5, hnt]
  rfl

theorem convert_unknown_nt (sym : String) (children : List DerivationNode)
    (h1 : sym ≠ "<expr>") (h2 : sym ≠ "<operation>") (h3 : sym ≠ "<var>")
    (h4 : sym ≠ "<const>") (h5 : sym ≠ "<op>") (hnt : isNonTerminal sym = true) :
    convert (.node sym children) = convertPass children := by
  rw [convert_node, if_neg h1, if_neg h2, if_neg h3, if_neg h4, if_neg h5, hnt]
  rfl

theorem convert_operation_ok {a b c : DerivationNode} {tok : String}
    {el er : ExpressionNode} (ha : extractToken a = .ok tok)
    (hb : convert b = .ok el) (hc : convert c = .ok er) :
    convert (.node "<operation>" [a, b, c]) = .ok (.mk "operator" tok [el, er]) := by
  rw [convert_operation_sym, convertOperation_three, ha, hb, hc]

theorem goodShape_convert_ok {t : DerivationNode} (hg : GoodShape t) :
    ∃ e, convert t = .ok e := by
  induction hg with
  | expr c rest hc ihc =>
    obtain ⟨e, he⟩ := ihc
    exact ⟨e, by rw [convert_expr_sym, convertExpr_cons]; exact he⟩
  | operation opChild l r hts hl hr ihl ihr =>
    obtain ⟨tok, htok⟩ := (extractToken_ok_iff opChild).mpr hts
    obtain ⟨el, hel⟩ := ihl
    obtain ⟨er, her⟩ := ihr
    exact ⟨.mk "operator" tok [el, er], convert_operation_ok htok hel her⟩
  | var c rest hts =>
    obtain ⟨tok, htok⟩ := (extractToken_ok_iff c).mpr hts
    exact ⟨.mk "variable" tok [], by rw [convert_var_sym, convertVar_cons, htok]⟩
  | const c rest hts =>
    obtain ⟨tok, htok⟩ := (extractToken_ok_iff c).mpr hts
    exact ⟨.mk "constant" tok [], by rw [convert_const_sym, convertConst_cons, htok]⟩
  | opNT c rest hts =>
    obtain ⟨tok, htok⟩ := (extractToken_ok_iff c).mpr hts
    exact ⟨.mk "operator-token" tok [],
      by rw [convert_op_sym, convertOp_cons, htok]⟩
  | literal sym children hnt =>
    exact ⟨.mk "literal" sym [], convert_literal sym children hnt⟩
  | passthrough sym c h1 h2 h3 h4 h5 hnt hc ihc =>
    obtain ⟨e, he⟩ := ihc
    refine ⟨e, ?_⟩
    rw [convert_unknown_nt sym [c] h1 h2 h3 h4 h5 hnt, convertPass_one]
    exact he

theorem convert_ok_goodShape : ∀ t : DerivationNode,
    (∃ e, convert t = .ok e) → GoodShape t := by
  intro t
  induction t using derivation_induction with
  | h sym children ih =>
    rintro ⟨e, he⟩
    by_cases h1 : sym = "<expr>"
    · subst h1
      cases children with
      | nil => rw [convert_expr_sym, convertExpr_nil] at he; simp at he
      | cons c rest =>
        rw [convert_expr_sym, convertExpr_cons] at he
        exact GoodShape.expr c rest (ih c (by simp) ⟨e, he⟩)
    · by_cases h2 : sym = "<operation>"
      · subst h2
        rw [convert_operation_sym] at he
        match children with
        | [] => rw [convertOperation_nil] at he; simp at he
        | [a] => rw [convertOperation_one] at he; simp at he
        | [a, b] => rw [convertOperation_two] at he; simp at he
        | a :: b :: c :: d :: rest => rw [convertOperation_four] at he; simp at he
        | [a, b, c] =>
          rw [convertOperation_three] at he
          cases hta : extractToken a with
          | error er => rw [hta] at he; simp at he
          | ok tok =>
            rw [hta] at he
            cases htb : convert b with
            | error er => rw [htb] at he; simp at he
            | ok el =>
              rw [htb] at he
              cases htc : convert c with
              | error er => rw [htc] at he; simp at he
              | ok er =>
                exact GoodShape.operation a b c
                  ((extractToken_ok_iff a).mp ⟨tok, hta⟩)
                  (ih b (by simp) ⟨el, htb⟩)
                  (ih c (by simp) ⟨er, htc⟩)
      · by_cases h3 : sym = "<var>"
        · subst h3
          rw [convert_var_sym] at he
          cases children with
          | nil => rw [convertVar_nil] at he; simp at he
          | cons c rest =>
            rw [convertVar_cons] at he
            cases htc : extractToken c with
            | error er => rw [htc] at he; simp at he
            | ok tok => exact GoodShape.var c rest ((extractToken_ok_iff c).mp ⟨tok, htc⟩)
        · by_cases h4 : sym = "<const>"
          · subst h4
            rw [convert_const_sym] at he
            cases children with
            | nil => rw [convertConst_nil] at he; simp at he
            | cons c rest =>
              rw [convertConst_cons] at he
              cases htc : extractToken c with
              | error er => rw [htc] at he; simp at he
              | ok tok =>
                exact GoodShape.const c rest ((extractToken_ok_iff c).mp ⟨tok, htc⟩)
          · by_cases h5 : sym = "<op>"
            · subst h5
              rw [convert_op_sym] at he
              cases children with
              | nil => rw [convertOp_nil] at he; simp at he
              | cons c rest =>
                rw [convertOp_cons] at he
                cases htc : extractToken c with
                | error er => rw [htc] at he; simp at he
                | ok tok =>
                  exact GoodShape.opNT c rest ((extractToken_ok_iff c).mp ⟨tok, htc⟩)
            · cases hnt : isNonTerminal sym with
              | false => exact GoodShape.literal sym children hnt
              | true =>
                rw [convert_unknown_nt sym children h1 h2 h3 h4 h5 hnt] at he
                match children with
                | [] => rw [convertPass_nil] at he; simp at he
                | [c] =>
                  rw [convertPass_one] at he
                  exact GoodShape.passthrough sym c h1 h2 h3 h4 h5 hnt
                    (ih c (by simp) ⟨e, he⟩)
                | c :: d :: rest => rw [convertPass_many] at he; simp at he

/-! ## Claim theorems: expression builder -/

/-- C7 counterexample: a `<var>` node with two children (a wrong child
count) does not fail — `_convert` reads `node.children[0]` and silently
ignores the extra child. -/
theorem convert_var_extra_child_no_error :
    convert (.node "<var>" [.node "x" [], .node "y" []]) =
      .ok (.mk "variable" "x" []) := by
  rw [convert_var_sym, convertVar_cons]
  rfl

/-- C7 (amended): `_convert` succeeds exactly on the shapes described by
`GoodShape` — the fixed per-non-terminal rules, with children beyond
the first of `<expr>`, `<var>`, `<const>` and `<op>` ignored rather
than rejected — and on every other shape it fails, with an index error
for a childless `<var>`/`<const>`/`<op>` and a structural-validation
error otherwise. -/
theorem arithmetic_builder_spec :
    (∀ t, (∃ e, convert t = .ok e) ↔ GoodShape t) ∧
    (∀ c rest, convert (.node "<expr>" (c :: rest)) = convert c) ∧
    (convert (.node "<expr>" []) = .error .valueError) ∧
    (∀ a b c tok el er, extractToken a = .ok tok → convert b = .ok el →
      convert c = .ok er →
      convert (.node "<operation>" [a, b, c]) = .ok (.mk "operator" tok [el, er])) ∧
    (∀ children, children.length ≠ 3 →
      convert (.node "<operation>" children) = .error .valueError) ∧
    (∀ c rest tok, extractToken c = .ok tok →
      convert (.node "<var>" (c :: rest)) = .ok (.mk "variable" tok [])) ∧
    (∀ c rest tok, extractToken c = .ok tok →
      convert (.node "<const>" (c :: rest)) = .ok (.mk "constant" tok [])) ∧
    (∀ c rest tok, extractToken c = .ok tok →
      convert (.node "<op>" (c :: rest)) = .ok (.mk "operator-token" tok [])) ∧
    (convert (.node "<var>" []) = .error .indexError) ∧
    (convert (.node "<const>" []) = .error .indexError) ∧
    (convert (.node "<op>" []) = .error .indexError) ∧
    (∀ sym children, isNonTerminal sym = false →
      convert (.node sym children) = .ok (.mk "literal" sym [])) ∧
    (∀ sym c, sym ≠ "<expr>" → sym ≠ "<operation>" → sym ≠ "<var>" →
      sym ≠ "<const>" → sym ≠ "<op>" → isNonTerminal sym = true →
      convert (.node sym [c]) = convert c) ∧
    (∀ sym children, sym ≠ "<expr>" → sym ≠ "<operation>" → sym ≠ "<var>" →
      sym ≠ "<const>" → sym ≠ "<op>" → isNonTerminal sym = true →
      children.length ≠ 1 →
      convert (.node sym children) = .error .valueError) := by
  refine ⟨?_, ?_, ?_, ?_, ?_, ?_, ?_, ?_, ?_, ?_, ?_, ?_, ?_, ?_⟩
  · intro t
    exact ⟨convert_ok_goodShape t, goodShape_convert_ok⟩
  · intro c rest
    rw [convert_expr_sym, convertExpr_cons]
  · rw [convert_expr_sym, convertExpr_nil]
  · intro a b c tok el er ha hb hc
    exact convert_operation_ok ha hb hc
  · intro children hlen
    rw [convert_operation_sym]
    match children, hlen with
    | [], _ => rw [convertOperation_nil]
    | [a], _ => rw [convertOperation_one]
    | [a, b], _ => rw [convertOperation_two]
    | [a, b, c], h => exact absurd rfl h
    | a :: b :: c :: d :: rest, _ => rw [convertOperation_four]
  · intro c rest tok htok
    rw [convert_var_sym, convertVar_cons, htok]
  · intro c rest tok htok
    rw [convert_const_sym, convertConst_cons, htok]
  · intro c rest tok htok
    rw [convert_op_sym, convertOp_cons, htok]
  · rw [convert_var_sym, convertVar_nil]
  · rw [convert_const_sym, convertConst_nil]
  · rw [convert_op_sym, convertOp_nil]
  · intro sym children hnt
    exact convert_literal sym children hnt
  · intro sym c h1 h2 h3 h4 h5 hnt
    rw [convert_unknown_nt sym [c] h1 h2 h3 h4 h5 hnt, convertPass_one]
  · intro sym children h1 h2 h3 h4 h5 hnt hlen
    rw [convert_unknown_nt sym children h1 h2 h3 h4 h5 hnt]
    match children, hlen with
    | [], _ => rw [convertPass_nil]
    | [c], h => exact absurd rfl h
    | c :: d :: rest, _ => rw [convertPass_many]

/-- Closed-form instantiation of C7's amended theorem: a `<var>` node
over the leaf `x` translates to a variable expression node, and an
`<operation>` node with two children fails with a validation error. -/
theorem arithmetic_builder_spec_witness :
    convert (.node "<var>" [.node "x" []]) = .ok (.mk "variable" "x" []) ∧
    convert (.node "<operation>" [.node "x" [], .node "y" []]) =
      .error .valueError := by
  constructor
  · exact arithmetic_builder_spec.2.2.2.2.2.1 (.node "x" []) [] "x" rfl
  · exact arithmetic_builder_spec.2.2.2.2.1 [.node "x" [], .node "y" []] (by simp)

/-! ## Helper lemmas: tokens that parse as floats are terminals -/

theorem digitsToNat_fold_none (rest : List Char) :
    rest.foldl
      (fun acc c =>
        match acc with
        | none => none
        | some n => if c.isDigit then some (10 * n + (c.toNat - 48)) else none)
      none = none := by
  induction rest with
  | nil => rfl
  | cons c rest ih => simpa using ih

theorem digitsToNat_head_nondigit {c : Char} (rest : List Char)
    (h : c.isDigit = false) : digitsToNat (c :: rest) = none := by
  unfold digitsToNat
  simp only [List.foldl_cons, h]
  simpa using digitsToNat_fold_none rest

theorem parseDigits_head_nondigit {c : Char} (rest : List Char)
    (h : c.isDigit = false) : parseDigits (c :: rest) = none := by
  unfold parseDigits
  simp [digitsToNat_head_nondigit rest h]

theorem splitOnDot_ne_nil (cs : List Char) : splitOnDot cs ≠ [] := by
  induction cs with
  | nil => simp [splitOnDot]
  | cons c rest ih =>
    unfold splitOnDot
    by_cases h : c = '.'
    · simp [h]
    · simp only [h, if_false]
      cases hr : splitOnDot rest with
      | nil => simp
      | cons g gs => simp

theorem splitOnDot_head_cons (c : Char) (cs : List Char) (h : ¬ c = '.') :
    ∃ g gs, splitOnDot (c :: cs) = (c :: g) :: gs := by
  unfold splitOnDot
  simp only [if_neg h]
  cases hr : splitOnDot cs with
  | nil => exact absurd hr (splitOnDot_ne_nil cs)
  | cons g gs => exact ⟨g, gs, rfl⟩

theorem parseMagnitude_head_lt (cs : List Char) :
    parseMagnitude ('<' :: cs) = none := by
  obtain ⟨g, gs, hsplit⟩ := splitOnDot_head_cons '<' cs (by decide)
  unfold parseMagnitude
  rw [hsplit]
  have hpd : parseDigits ('<' :: g) = none := parseDigits_head_nondigit g (by decide)
  cases gs with
  | nil => simp [hpd]
  | cons fp gs' =>
    cases gs' with
    | nil => simp [hpd]
    | cons fp2 gs'' => simp

theorem terminal_of_parseFloat {c : String} {q : ℚ} (h : parseFloat c = some q) :
    isNonTerminal c = false := by
  cases hl : c.toList with
  | nil => simp [isNonTerminal, show c.data = [] from hl]
  | cons ch rest =>
    by_cases hch : ch = '<'
    · subst hch
      exfalso
      unfold parseFloat at h
      rw [hl] at h
      simp [parseMagnitude_head_lt rest] at h
    · simp [isNonTerminal, show c.data = ch :: rest from hl, hch]

/-! ## Helper lemmas: evaluation of well-formed arithmetic expressions -/

theorem evaluate_variable (v : String) (ctx : List (String × ℚ)) :
    (ExpressionNode.mk "variable" v []).evaluate ctx =
      (match ctx.lookup v with
       | none => .error .keyError
       | some q => .ok q) := by
  rw [ExpressionNode.evaluate]
  all_goals simp

theorem evaluate_constant (c : String) (ctx : List (String × ℚ)) :
    (ExpressionNode.mk "constant" c []).evaluate ctx =
      (match parseFloat c with
       | none => .error .valueError
       | some q => .ok q) := by
  rw [ExpressionNode.evaluate]
  all_goals simp

theorem exceptBindOk {ε α β : Type} (a : α) (f : α → Except ε β) :
    Bind.bind (Except.ok a) f = f a := rfl

theorem exceptBindErr {ε α β : Type} (e : ε) (f : α → Except ε β) :
    Bind.bind (Except.error e : Except ε α) f = (Except.error e : Except ε β) := rfl

theorem evaluate_operator_base (o : String) (l r : ExpressionNode)
    (ctx : List (String × ℚ)) (hreg : isRegisteredOperator o = true) :
    (ExpressionNode.mk "operator" o [l, r]).evaluate ctx =
      Bind.bind (l.evaluate ctx) (fun a =>
        Bind.bind (r.evaluate ctx) (fun b => applyOperator o a b)) := by
  rw [ExpressionNode.evaluate]
  have h1 : ("operator" : String) ≠ "variable" := by decide
  have h2 : ("operator" : String) ≠ "constant" := by decide
  rw [if_neg h1, if_neg h2, if_pos rfl, hreg]
  simp only [Bool.not_true]
  rw [if_neg (by decide : ¬ ((false : Bool) = true))]

theorem applyOperator_ok_or_zeroDiv (o : String) (a b : ℚ)
    (hreg : isRegisteredOperator o = true) :
    (∃ q, applyOperator o a b = .ok q) ∨ applyOperator o a b = .error .zeroDiv := by
  unfold applyOperator
  by_cases h1 : o = "+"
  · exact Or.inl ⟨a + b, by rw [if_pos h1]⟩
  · by_cases h2 : o = "-"
    · exact Or.inl ⟨a - b, by rw [if_neg h1, if_pos h2]⟩
    · by_cases h3 : o = "*"
      · exact Or.inl ⟨a * b, by rw [if_neg h1, if_neg h2, if_pos h3]⟩
      · have h4 : o = "/" := by
          simp [isRegisteredOperator, h1, h2, h3] at hreg
          exact hreg
        rw [if_neg h1, if_neg h2, if_neg h3, if_pos h4]
        unfold safeDivision
        by_cases h5 : |b| < 1 / 1000000000000
        · exact Or.inr (by rw [if_pos h5])
        · exact Or.inl ⟨a / b, by rw [if_neg h5]⟩

theorem wfArith_eval {vars : List String} {e : ExpressionNode}
    (ctx : List (String × ℚ)) (hctx : ∀ v ∈ vars, ∃ q, ctx.lookup v = some q)
    (hw : WfArith vars e) :
    (∃ q, e.evaluate ctx = .ok q) ∨ e.evaluate ctx = .error .zeroDiv := by
  induction hw with
  | var hv =>
    obtain ⟨q, hq⟩ := hctx _ hv
    exact Or.inl ⟨q, by rw [evaluate_variable, hq]⟩
  | const hc =>
    rename_i c q
    exact Or.inl ⟨q, by rw [evaluate_constant, hc]⟩
  | opNode hreg hl hr ihl ihr =>
    rename_i o l r
    rw [evaluate_operator_base o l r ctx hreg]
    rcases ihl with ⟨a, ha⟩ | ha
    · simp only [ha, exceptBindOk]
      rcases ihr with ⟨b, hb⟩ | hb
      · simp only [hb, exceptBindOk]
        exact applyOperator_ok_or_zeroDiv o a b hreg
      · simp only [hb, exceptBindErr]
        exact Or.inr trivial
    · simp only [ha, exceptBindErr]
      exact Or.inr trivial

/-! ## Helper lemmas: inversion of grammar expansion -/

theorem expand_zero (g : Grammar) (s : ℕ → ℕ) (sym : String) (depth max_depth : ℤ)
    (k : ℕ) : Grammar.expand g s 0 sym depth max_depth k = .error .outOfFuel := by
  rw [Grammar.expand]

theorem expand_terminal_inv {g : Grammar} {s : ℕ → ℕ} {fuel : ℕ} {sym : String}
    {depth max_depth : ℤ} {k : ℕ} {t : DerivationNode} {k' : ℕ}
    (hnt : isNonTerminal sym = false)
    (hrun : Grammar.expand g s fuel sym depth max_depth k = .ok (t, k')) :
    t = .node sym [] ∧ k' = k := by
  match fuel with
  | 0 => rw [expand_zero] at hrun; simp at hrun
  | fuel + 1 =>
    simp [Grammar.expand, hnt] at hrun
    exact ⟨hrun.1.symm, hrun.2.symm⟩

theorem eligible_mem {symbol : String} {productions : List Production}
    {depth max_depth : ℤ} {p : Production}
    (h : p ∈ eligible_productions symbol productions depth max_depth) :
    p ∈ productions := by
  unfold eligible_productions at h
  split_ifs at h
  · exact h
  · exact (List.mem_filter.mp h).1
  · exact (List.mem_filter.mp h).1
  · exact h

theorem expand_nt_inv {g : Grammar} {s : ℕ → ℕ} {fuel : ℕ} {sym : String}
    {depth max_depth : ℤ} {k : ℕ} {t : DerivationNode} {k' : ℕ}
    (hnt : isNonTerminal sym = true)
    (hrun : Grammar.expand g s (fuel + 1) sym depth max_depth k = .ok (t, k')) :
    ∃ p ∈ eligible_productions sym (g.productions_for sym) depth max_depth,
      ∃ children, t = .node sym children ∧
        Grammar.expandTokens g s fuel p.expansion (depth + 1) max_depth (k + 1) =
          .ok (children, k') := by
  by_cases hp : g.productions_for sym = []
  · simp [Grammar.expand, hnt, hp] at hrun
  · have hne := eligible_productions_ne_nil sym (g.productions_for sym)
      depth max_depth hp
    simp only [Grammar.expand, hnt, if_pos rfl, if_true, hp, if_neg hp, if_false] at hrun
    refine ⟨(eligible_productions sym (g.productions_for sym) depth max_depth).getD
        (s k % (eligible_productions sym (g.productions_for sym) depth
          max_depth).length) ⟨[]⟩,
      getD_mod_mem _ _ _ hne, ?_⟩
    cases hm : Grammar.expandTokens g s fuel
        ((eligible_productions sym (g.productions_for sym) depth max_depth).getD
          (s k % (eligible_productions sym (g.productions_for sym) depth
            max_depth).length) ⟨[]⟩).expansion (depth + 1) max_depth (k + 1) with
    | error e => rw [hm] at hrun; simp at hrun
    | ok res =>
      obtain ⟨children, k''⟩ := res
      rw [hm] at hrun
      simp only [Except.ok.injEq, Prod.mk.injEq] at hrun
      refine ⟨children, hrun.1.symm, ?_⟩
      rw [hrun.2]

theorem expandTokens_nil_inv {g : Grammar} {s : ℕ → ℕ} {fuel : ℕ}
    {depth max_depth : ℤ} {k : ℕ} {ts : List DerivationNode} {k' : ℕ}
    (hrun : Grammar.expandTokens g s fuel [] depth max_depth k = .ok (ts, k')) :
    ts = [] ∧ k' = k := by
  rw [Grammar.expandTokens] at hrun
  simp at hrun
  exact ⟨hrun.1, hrun.2.symm⟩

theorem expandTokens_cons_inv {g : Grammar} {s : ℕ → ℕ} {fuel : ℕ} {token : String}
    {rest : List String} {depth max_depth : ℤ} {k : ℕ} {ts : List DerivationNode}
    {k' : ℕ}
    (hrun : Grammar.expandTokens g s fuel (token :: rest) depth max_depth k =
      .ok (ts, k')) :
    ∃ c0 k1 ts', Grammar.expand g s fuel token depth max_depth k = .ok (c0, k1) ∧
      Grammar.expandTokens g s fuel rest depth max_depth k1 = .ok (ts', k') ∧
      ts = c0 :: ts' := by
  rw [Grammar.expandTokens] at hrun
  cases h1 : Grammar.expand g s fuel token depth max_depth k with
  | error e => rw [h1] at hrun; simp at hrun
  | ok res1 =>
    obtain ⟨c0, k1⟩ := res1
    simp only [h1] at hrun
    cases h2 : Grammar.expandTokens g s fuel rest depth max_depth k1 with
    | error e => simp only [h2] at hrun; simp at hrun
    | ok res2 =>
      obtain ⟨ts', k''⟩ := res2
      simp only [h2] at hrun
      simp only [Except.ok.injEq, Prod.mk.injEq] at hrun
      refine ⟨c0, k1, ts', rfl, ?_, hrun.1.symm⟩
      rw [← hrun.2]
      exact h2

theorem expandTokens_singleton_inv {g : Grammar} {s : ℕ → ℕ} {fuel : ℕ}
    {token : String} {depth max_depth : ℤ} {k : ℕ} {ts : List DerivationNode}
    {k' : ℕ}
    (hrun : Grammar.expandTokens g s fuel [token] depth max_depth k = .ok (ts, k')) :
    ∃ c0, ts = [c0] ∧ Grammar.expand g s fuel token depth max_depth k = .ok (c0, k') := by
  obtain ⟨c0, k1, ts', h1, h2, h3⟩ := expandTokens_cons_inv hrun
  obtain ⟨hts', hk⟩ := expandTokens_nil_inv h2
  subst hts'
  subst hk
  exact ⟨c0, h3, h1⟩

theorem symSpec_of_genTree {vars consts ops : List String} {sym : String}
    {t : DerivationNode}
    (h5 : sym = "<expr>" ∨ sym = "<operation>" ∨ sym = "<var>" ∨ sym = "<const>" ∨
      sym = "<op>")
    (hg : GenTree vars consts ops sym t) : SymSpec vars consts ops sym t := by
  unfold SymSpec
  rw [if_pos h5]
  exact hg

theorem genTree_of_symSpec {vars consts ops : List String} {sym : String}
    {t : DerivationNode}
    (h5 : sym = "<expr>" ∨ sym = "<operation>" ∨ sym = "<var>" ∨ sym = "<const>" ∨
      sym = "<op>")
    (hs : SymSpec vars consts ops sym t) : GenTree vars consts ops sym t := by
  unfold SymSpec at hs
  rw [if_pos h5] at hs
  exact hs

theorem expand_symSpec (g : Grammar) (s : ℕ → ℕ) (vars consts ops : List String)
    (max_depth : ℤ)
    (hexpr : g.prods "<expr>" = [⟨["<operation>"]⟩, ⟨["<var>"]⟩, ⟨["<const>"]⟩])
    (hopn : g.prods "<operation>" = [⟨["<op>", "<expr>", "<expr>"]⟩])
    (hvarp : g.prods "<var>" = vars.map (fun v => ⟨[v]⟩))
    (hconstp : g.prods "<const>" = consts.map (fun c => ⟨[c]⟩))
    (hopp : g.prods "<op>" = ops.map (fun o => ⟨[o]⟩))
    (hvt : ∀ v ∈ vars, isNonTerminal v = false)
    (hct : ∀ c ∈ consts, isNonTerminal c = false)
    (hot : ∀ o ∈ ops, isNonTerminal o = false)
    (hother : ∀ sym, sym ≠ "<expr>" → sym ≠ "<operation>" → sym ≠ "<var>" →
      sym ≠ "<const>" → sym ≠ "<op>" → g.prods sym = []) :
    ∀ fuel sym depth k t k',
      Grammar.expand g s fuel sym depth max_depth k = .ok (t, k') →
      SymSpec vars consts ops sym t := by
  intro fuel
  induction fuel using Nat.strong_induction_on with
  | _ fuel ih =>
    intro sym depth k t k' hrun
    cases fuel with
    | zero => rw [expand_zero] at hrun; exact absurd hrun (by simp)
    | succ fuel =>
      have ihf := ih fuel (Nat.lt_succ_self fuel)
      cases hnt : isNonTerminal sym with
      | false =>
        obtain ⟨ht, _⟩ := expand_terminal_inv hnt hrun
        unfold SymSpec
        rw [if_neg ?hne]
        case hne =>
          rintro (h | h | h | h | h) <;> (subst h; exact absurd hnt (by decide))
        exact ht
      | true =>
        obtain ⟨p, hpmem, children, ht, htoks⟩ := expand_nt_inv hnt hrun
        have hpp := eligible_mem hpmem
        subst ht
        by_cases h1 : sym = "<expr>"
        · subst h1
          rw [Grammar.productions_for, hexpr] at hpp
          apply symSpec_of_genTree (Or.inl rfl)
          rcases List.mem_cons.mp hpp with rfl | hpp'
          · obtain ⟨c0, hch, hc0⟩ := expandTokens_singleton_inv htoks
            subst hch
            exact GenTree.exprOp (genTree_of_symSpec (Or.inr (Or.inl rfl))
              (ihf "<operation>" _ _ _ _ hc0))
          · rcases List.mem_cons.mp hpp' with rfl | hpp''
            · obtain ⟨c0, hch, hc0⟩ := expandTokens_singleton_inv htoks
              subst hch
              exact GenTree.exprVar (genTree_of_symSpec
                (Or.inr (Or.inr (Or.inl rfl))) (ihf "<var>" _ _ _ _ hc0))
            · rcases List.mem_cons.mp hpp'' with rfl | hpp'''
              · obtain ⟨c0, hch, hc0⟩ := expandTokens_singleton_inv htoks
                subst hch
                exact GenTree.exprConst (genTree_of_symSpec
                  (Or.inr (Or.inr (Or.inr (Or.inl rfl)))) (ihf "<const>" _ _ _ _ hc0))
              · simp at hpp'''
        · by_cases h2 : sym = "<operation>"
          · subst h2
            rw [Grammar.productions_for, hopn] at hpp
            apply symSpec_of_genTree (Or.inr (Or.inl rfl))
            rcases List.mem_cons.mp hpp with rfl | hpp'
            · obtain ⟨c0, k1, ts1, hc0, hrest1, hts⟩ := expandTokens_cons_inv htoks
              obtain ⟨c1, k2, ts2, hc1, hrest2, hts2⟩ := expandTokens_cons_inv hrest1
              obtain ⟨c2, k3, ts3, hc2, hrest3, hts3⟩ := expandTokens_cons_inv hrest2
              obtain ⟨hts4, _⟩ := expandTokens_nil_inv hrest3
              subst hts4
              subst hts3
              subst hts2
              subst hts
              exact GenTree.operation
                (genTree_of_symSpec (Or.inr (Or.inr (Or.inr (Or.inr rfl))))
                  (ihf "<op>" _ _ _ _ hc0))
                (genTree_of_symSpec (Or.inl rfl) (ihf "<expr>" _ _ _ _ hc1))
                (genTree_of_symSpec (Or.inl rfl) (ihf "<expr>" _ _ _ _ hc2))
            · simp at hpp'
          · by_cases h3 : sym = "<var>"
            · subst h3
              rw [Grammar.productions_for, hvarp] at hpp
              apply symSpec_of_genTree (Or.inr (Or.inr (Or.inl rfl)))
              obtain ⟨v, hv, rfl⟩ := List.mem_map.mp hpp
              obtain ⟨c0, hch, hc0⟩ := expandTokens_singleton_inv htoks
              subst hch
              obtain ⟨hc0t, _⟩ := expand_terminal_inv (hvt v hv) hc0
              subst hc0t
              exact GenTree.var hv
            · by_cases h4 : sym = "<const>"
              · subst h4
                rw [Grammar.productions_for, hconstp] at hpp
                apply symSpec_of_genTree (Or.inr (Or.inr (Or.inr (Or.inl rfl))))
                obtain ⟨c, hc, rfl⟩ := List.mem_map.mp hpp
                obtain ⟨c0, hch, hc0⟩ := expandTokens_singleton_inv htoks
                subst hch
                obtain ⟨hc0t, _⟩ := expand_terminal_inv (hct c hc) hc0
                subst hc0t
                exact GenTree.const hc
              · by_cases h5 : sym = "<op>"
                · subst h5
                  rw [Grammar.productions_for, hopp] at hpp
                  apply symSpec_of_genTree (Or.inr (Or.inr (Or.inr (Or.inr rfl))))
                  obtain ⟨o, ho, rfl⟩ := List.mem_map.mp hpp
                  obtain ⟨c0, hch, hc0⟩ := expandTokens_singleton_inv htoks
                  subst hch
                  obtain ⟨hc0t, _⟩ := expand_terminal_inv (hot o ho) hc0
                  subst hc0t
                  exact GenTree.op ho
                · -- an unknown non-terminal has no registered
                  -- productions, so the expansion could not have
                  -- succeeded
                  exfalso
                  rw [Grammar.productions_for, hother sym h1 h2 h3 h4 h5] at hpp
                  simp at hpp

theorem build_arith_grammar_spec {vars consts ops : List String} {g : Grammar}
    (hbuild : build_arithmetic_grammar vars consts ops = .ok g) :
    g.start_symbol = "<expr>" ∧
    g.prods "<expr>" = [⟨["<operation>"]⟩, ⟨["<var>"]⟩, ⟨["<const>"]⟩] ∧
    g.prods "<operation>" = [⟨["<op>", "<expr>", "<expr>"]⟩] ∧
    g.prods "<var>" = vars.map (fun v => ⟨[v]⟩) ∧
    g.prods "<const>" = consts.map (fun c => ⟨[c]⟩) ∧
    g.prods "<op>" = ops.map (fun o => ⟨[o]⟩) ∧
    (∀ sym, sym ≠ "<expr>" → sym ≠ "<operation>" → sym ≠ "<var>" →
      sym ≠ "<const>" → sym ≠ "<op>" → g.prods sym = []) := by
  unfold build_arithmetic_grammar Grammar.inject_terminals Grammar.add_rule at hbuild
  by_cases hv : vars = []
  · simp [hv, exceptBindErr] at hbuild
  · by_cases hc : consts = []
    · simp [hv, hc, exceptBindOk, exceptBindErr] at hbuild
    · by_cases ho : ops = []
      · simp [hv, hc, ho, exceptBindOk, exceptBindErr] at hbuild
      · simp only [if_neg hv, if_neg hc, if_neg ho, exceptBindOk,
          Except.ok.injEq] at hbuild
        subst hbuild
        refine ⟨rfl, ?_, ?_, ?_, ?_, ?_, ?_⟩
        · simp
        · simp
        · simp
        · simp
        · simp
        · intro sym h1 h2 h3 h4 h5
          simp [h1, h2, h3, h4, h5]

theorem extractToken_leaf {sym : String} (hnt : isNonTerminal sym = false) :
    extractToken (.node sym []) = .ok sym := by
  simp [extractToken, hnt]

theorem extractToken_cons (sym : String) (c : DerivationNode)
    (rest : List DerivationNode) :
    extractToken (.node sym (c :: rest)) = extractToken c := by
  simp [extractToken]

theorem genTree_sound {vars consts ops : List String}
    (hvt : ∀ v ∈ vars, isNonTerminal v = false)
    (hct : ∀ c ∈ consts, isNonTerminal c = false)
    (hot : ∀ o ∈ ops, isNonTerminal o = false)
    (hcp : ∀ c ∈ consts, ∃ q, parseFloat c = some q)
    (horeg : ∀ o ∈ ops, isRegisteredOperator o = true) :
    ∀ sym t, GenTree vars consts ops sym t →
      ((sym = "<expr>" ∨ sym = "<operation>") →
        ∃ e, convert t = .ok e ∧ WfArith vars e) ∧
      (sym = "<var>" → ∃ v, v ∈ vars ∧ convert t = .ok (.mk "variable" v [])) ∧
      (sym = "<const>" → ∃ c, c ∈ consts ∧ convert t = .ok (.mk "constant" c [])) ∧
      (sym = "<op>" → ∃ o, o ∈ ops ∧ extractToken t = .ok o) := by
  intro sym t hgt
  induction hgt with
  | exprOp h ihsub =>
    refine ⟨fun _ => ?_, fun h => absurd h (by decide), fun h => absurd h (by decide),
      fun h => absurd h (by decide)⟩
    obtain ⟨e, he, hw⟩ := ihsub.1 (Or.inr rfl)
    exact ⟨e, by rw [convert_expr_sym, convertExpr_cons]; exact he, hw⟩
  | exprVar h ihsub =>
    refine ⟨fun _ => ?_, fun h => absurd h (by decide), fun h => absurd h (by decide),
      fun h => absurd h (by decide)⟩
    obtain ⟨v, hv, hconv⟩ := ihsub.2.1 rfl
    refine ⟨.mk "variable" v [], ?_, WfArith.var hv⟩
    rw [convert_expr_sym, convertExpr_cons]
    exact hconv
  | exprConst h ihsub =>
    refine ⟨fun _ => ?_, fun h => absurd h (by decide), fun h => absurd h (by decide),
      fun h => absurd h (by decide)⟩
    obtain ⟨c, hc, hconv⟩ := ihsub.2.2.1 rfl
    obtain ⟨q, hq⟩ := hcp c hc
    refine ⟨.mk "constant" c [], ?_, WfArith.const hq⟩
    rw [convert_expr_sym, convertExpr_cons]
    exact hconv
  | operation ho hl hr iho ihl ihr =>
    refine ⟨fun _ => ?_, fun h => absurd h (by decide), fun h => absurd h (by decide),
      fun h => absurd h (by decide)⟩
    obtain ⟨o, homem, htok⟩ := iho.2.2.2 rfl
    obtain ⟨el, hel, hwl⟩ := ihl.1 (Or.inl rfl)
    obtain ⟨er, her, hwr⟩ := ihr.1 (Or.inl rfl)
    exact ⟨.mk "operator" o [el, er], convert_operation_ok htok hel her,
      WfArith.opNode (horeg o homem) hwl hwr⟩
  | var hv =>
    rename_i v
    refine ⟨fun h => absurd h (by rintro (h | h) <;> exact absurd h (by decide)),
      fun _ => ?_, fun h => absurd h (by decide), fun h => absurd h (by decide)⟩
    refine ⟨v, hv, ?_⟩
    rw [convert_var_sym, convertVar_cons, extractToken_leaf (hvt v hv)]
  | const hc =>
    rename_i c
    refine ⟨fun h => absurd h (by rintro (h | h) <;> exact absurd h (by decide)),
      fun h => absurd h (by decide), fun _ => ?_, fun h => absurd h (by decide)⟩
    refine ⟨c, hc, ?_⟩
    rw [convert_const_sym, convertConst_cons, extractToken_leaf (hct c hc)]
  | op ho =>
    rename_i o
    refine ⟨fun h => absurd h (by rintro (h | h) <;> exact absurd h (by decide)),
      fun h => absurd h (by decide), fun h => absurd h (by decide), fun _ => ?_⟩
    refine ⟨o, ho, ?_⟩
    rw [extractToken_cons, extractToken_leaf (hot o ho)]

/-! ## Claim theorems: arithmetic grammar round trip -/

/-- C9: every derivation tree the reference arithmetic grammar itself
produces (variables, float-parsable constants, and the default
operator set) builds into an expression whose evaluation under any
binding covering the grammar's variable set either succeeds or fails
only with the deliberate near-zero-division error. -/
theorem arith_roundtrip_safe (vars consts : List String) (g : Grammar)
    (s : ℕ → ℕ) (fuel : ℕ) (max_depth : ℤ) (t : DerivationNode)
    (ctx : List (String × ℚ))
    (hbuild : build_arithmetic_grammar vars consts ["+", "-", "*", "/"] = .ok g)
    (hvt : ∀ v ∈ vars, isNonTerminal v = false)
    (hcp : ∀ c ∈ consts, ∃ q, parseFloat c = some q)
    (hgen : Grammar.generate g s fuel max_depth = .ok t)
    (hctx : ∀ v ∈ vars, ∃ q, ctx.lookup v = some q) :
    ∃ e, convert t = .ok e ∧
      ((∃ q, e.evaluate ctx = .ok q) ∨ e.evaluate ctx = .error .zeroDiv) := by
  obtain ⟨hstart, hexpr, hopn, hvarp, hconstp, hopp, hother⟩ :=
    build_arith_grammar_spec hbuild
  have hct : ∀ c ∈ consts, isNonTerminal c = false := fun c hc =>
    terminal_of_parseFloat (hcp c hc).choose_spec
  have hot : ∀ o ∈ ["+", "-", "*", "/"], isNonTerminal o = false := by decide
  have horeg : ∀ o ∈ ["+", "-", "*", "/"], isRegisteredOperator o = true := by decide
  unfold Grammar.generate at hgen
  by_cases hd : max_depth < 1
  · rw [if_pos hd] at hgen
    simp at hgen
  · rw [if_neg hd] at hgen
    cases hrun : Grammar.expand g s fuel g.start_symbol 0 max_depth 0 with
    | error e => rw [hrun] at hgen; simp at hgen
    | ok res =>
      obtain ⟨t0, k'⟩ := res
      simp only [hrun] at hgen
      simp only [Except.ok.injEq] at hgen
      subst hgen
      rw [hstart] at hrun
      have hspec := expand_symSpec g s vars consts ["+", "-", "*", "/"] max_depth
        hexpr hopn hvarp hconstp hopp hvt hct hot hother fuel "<expr>" 0 0 t0 k' hrun
      have hgt := genTree_of_symSpec (Or.inl rfl) hspec
      obtain ⟨e, he, hw⟩ :=
        (genTree_sound hvt hct hot hcp horeg "<expr>" t0 hgt).1 (Or.inl rfl)
      exact ⟨e, he, wfArith_eval ctx hctx hw⟩

/-- Closed-form instantiation of C9's theorem: the grammar over
variable `x` and constant `1` generates `x` (with the constant-1
choice stream), which builds and evaluates safely under `x := 2`. -/
theorem arith_roundtrip_safe_witness :
    ∃ e, convert (.node "<expr>" [.node "<var>" [.node "x" []]]) = .ok e ∧
      ((∃ q, e.evaluate [("x", 2)] = .ok q) ∨
        e.evaluate [("x", 2)] = .error .zeroDiv) := by
  exact arith_roundtrip_safe ["x"] ["1"] sampleArithGrammar (fun _ => 1) 5 2
    (.node "<expr>" [.node "<var>" [.node "x" []]]) [("x", 2)]
    rfl
    (by intro v hv; simp at hv; subst hv; decide)
    (by intro c hc; simp at hc; subst hc; exact ⟨1, by decide⟩)
    (by simp [Grammar.generate, Grammar.expand, Grammar.expandTokens,
      eligible_productions, Grammar.productions_for, sampleArithGrammar,
      build_arithmetic_grammar, Grammar.add_rule, Grammar.inject_terminals,
      exceptBindOk, exceptBindErr, isNonTerminal, lastChar, List.getD])
    (by intro v hv; simp at hv; subst hv; exact ⟨2, rfl⟩)

/-! ## Helper lemmas: heap basics -/

theorem heapExtends_refl (h : Heap) : heapExtends h h :=
  ⟨le_refl _, fun _ _ => rfl⟩

theorem heapExtends_trans {h1 h2 h3 : Heap} (a : heapExtends h1 h2)
    (b : heapExtends h2 h3) : heapExtends h1 h3 :=
  ⟨le_trans a.1 b.1, fun i hi => by
    rw [b.2 i (lt_of_lt_of_le hi a.1), a.2 i hi]⟩

theorem alloc_mem_new (h : Heap) (r : NodeRec) :
    (h.alloc r).2.mem h.next = some r := by
  simp [Heap.alloc]

theorem alloc_mem_old (h : Heap) (r : NodeRec) {i : ℕ} (hi : i ≠ h.next) :
    (h.alloc r).2.mem i = h.mem i := by
  simp [Heap.alloc, hi]

theorem alloc_fst (h : Heap) (r : NodeRec) : (h.alloc r).1 = h.next := rfl

theorem alloc_mem_fst (h : Heap) (r : NodeRec) :
    (h.alloc r).2.mem (h.alloc r).1 = some r := by
  simp [Heap.alloc]

theorem alloc_extends (h : Heap) (r : NodeRec) : heapExtends h (h.alloc r).2 :=
  ⟨Nat.le_succ _, fun i hi => alloc_mem_old h r (Nat.ne_of_lt hi)⟩

theorem wf_alloc {h : Heap} (hwf : h.wf) (r : NodeRec) : (h.alloc r).2.wf := by
  intro i hi
  have h1 : i ≠ h.next := by
    simp only [Heap.alloc] at hi
    omega
  rw [alloc_mem_old h r h1]
  apply hwf
  simp only [Heap.alloc] at hi
  omega

theorem mem_lt_next {h : Heap} (hwf : h.wf) {i : ℕ} {r : NodeRec}
    (hmem : h.mem i = some r) : i < h.next := by
  by_contra hc
  rw [hwf i (le_of_not_lt hc)] at hmem
  exact absurd hmem (by simp)

theorem isSome_lt_next {h : Heap} (hwf : h.wf) {i : ℕ}
    (hmem : (h.mem i).isSome = true) : i < h.next := by
  cases hm : h.mem i with
  | none => rw [hm] at hmem; simp at hmem
  | some r => exact mem_lt_next hwf hm

theorem extends_mem {h h' : Heap} (hext : heapExtends h h') (hwf : h.wf)
    {i : ℕ} {r : NodeRec} (hmem : h.mem i = some r) : h'.mem i = some r := by
  rw [hext.2 i (mem_lt_next hwf hmem)]
  exact hmem

theorem extends_isSome {h h' : Heap} (hext : heapExtends h h') (hwf : h.wf)
    {i : ℕ} (hmem : (h.mem i).isSome = true) : (h'.mem i).isSome = true := by
  cases hm : h.mem i with
  | none => rw [hm] at hmem; simp at hmem
  | some r => rw [extends_mem hext hwf hm]; rfl

theorem closed_alloc {h : Heap} (hwf : h.wf) (hcl : h.closed) {r : NodeRec}
    (hch : ∀ c ∈ r.children, (h.mem c).isSome = true) : (h.alloc r).2.closed := by
  intro i r' hmem c hc
  by_cases hi : i = h.next
  · subst hi
    rw [alloc_mem_new] at hmem
    injection hmem with hr
    rw [← hr] at hc
    have hlt := isSome_lt_next hwf (hch c hc)
    rw [alloc_mem_old h r (Nat.ne_of_lt hlt)]
    exact hch c hc
  · rw [alloc_mem_old h r hi] at hmem
    have hcl' := hcl i r' hmem c hc
    have := isSome_lt_next hwf hcl'
    rw [alloc_mem_old h r (Nat.ne_of_lt this)]
    exact hcl'

theorem reach_live {h : Heap} (hcl : h.closed) {i x : ℕ}
    (hlive : (h.mem i).isSome = true) (hr : Reach h i x) : (h.mem x).isSome = true := by
  induction hr with
  | refl => exact hlive
  | child hmem hc _ ih => exact ih (hcl _ _ hmem _ hc)

theorem reach_back {h h' : Heap} (hext : heapExtends h h') (hwf : h.wf)
    (hcl : h.closed) {i x : ℕ} (hlive : (h.mem i).isSome = true)
    (hr : Reach h' i x) : Reach h i x := by
  revert hlive
  induction hr with
  | refl => intro _; exact Reach.refl _
  | @child a c j r hmem hc _ ih =>
    intro hlive
    cases hm : h.mem a with
    | none => rw [hm] at hlive; simp at hlive
    | some ra =>
      have hm' := extends_mem hext hwf hm
      rw [hm'] at hmem
      injection hmem with hreq
      rw [← hreq] at hc
      exact Reach.child hm hc (ih (hcl _ _ hm _ hc))

theorem reach_forward {h h' : Heap} (hext : heapExtends h h') (hwf : h.wf)
    {i x : ℕ} (hr : Reach h i x) : Reach h' i x := by
  induction hr with
  | refl => exact Reach.refl _
  | child hmem hc _ ih => exact Reach.child (extends_mem hext hwf hmem) hc ih

/-! ## Helper lemmas: clone, replace and alloc produce fresh trees -/

theorem clone_fresh : ∀ fuel : ℕ,
    (∀ h i j h', h.wf → h.closed → cloneTree fuel h i = some (j, h') →
      FreshTree h h' j) ∧
    (∀ h l js h', h.wf → h.closed → cloneList fuel h l = some (js, h') →
      FreshList h h' js) := by
  intro fuel
  induction fuel with
  | zero =>
    constructor
    · intro h i j h' _ _ hrun
      rw [cloneTree] at hrun
      exact absurd hrun (by simp)
    · intro h l js h' hwf hcl hrun
      cases l with
      | nil =>
        rw [cloneList] at hrun
        simp only [Option.some.injEq, Prod.mk.injEq] at hrun
        obtain ⟨rfl, rfl⟩ := hrun
        exact ⟨heapExtends_refl h, hwf, hcl, by simp⟩
      | cons i rest =>
        rw [cloneList, cloneTree] at hrun
        exact absurd hrun (by simp)
  | succ fuel ih =>
    have treeClause : ∀ h i j h', h.wf → h.closed →
        cloneTree (fuel + 1) h i = some (j, h') → FreshTree h h' j := by
      intro h i j h' hwf hcl hrun
      rw [cloneTree] at hrun
      cases hm : h.mem i with
      | none => rw [hm] at hrun; exact absurd hrun (by simp)
      | some r =>
        simp only [hm] at hrun
        cases hcs : cloneList fuel h r.children with
        | none => simp only [hcs] at hrun; exact absurd hrun (by simp)
        | some res =>
          obtain ⟨cs, h1⟩ := res
          simp only [hcs, Option.some.injEq] at hrun
          obtain ⟨hext1, hwf1, hcl1, hmems⟩ := ih.2 h r.children cs h1 hwf hcl hcs
          have hj : j = (h1.alloc ⟨r.symbol, cs⟩).1 := by rw [hrun]
          have hh' : h' = (h1.alloc ⟨r.symbol, cs⟩).2 := by rw [hrun]
          subst hj
          subst hh'
          have hext2 := alloc_extends h1 ⟨r.symbol, cs⟩
          refine ⟨heapExtends_trans hext1 hext2, wf_alloc hwf1 _,
            closed_alloc hwf1 hcl1 (fun c hc => (hmems c hc).2.1), ?_, ?_, ?_⟩
          · rw [alloc_fst]
            exact hext1.1
          · rw [alloc_mem_fst]
            rfl
          · intro x hr
            cases hr with
            | refl =>
              rw [alloc_fst]
              exact hext1.1
            | @child _ c _ rec hmem' hc hr' =>
              rw [alloc_mem_fst] at hmem'
              injection hmem' with hrec
              rw [← hrec] at hc
              have hlive := (hmems c hc).2.1
              have := reach_back hext2 hwf1 hcl1 hlive hr'
              exact (hmems c hc).2.2 x this
    refine ⟨treeClause, ?_⟩
    intro h l
    induction l generalizing h with
    | nil =>
      intro js h' hwf hcl hrun
      rw [cloneList] at hrun
      simp only [Option.some.injEq, Prod.mk.injEq] at hrun
      obtain ⟨rfl, rfl⟩ := hrun
      exact ⟨heapExtends_refl h, hwf, hcl, by simp⟩
    | cons i rest ihl =>
      intro js h' hwf hcl hrun
      rw [cloneList] at hrun
      cases hct : cloneTree (fuel + 1) h i with
      | none =>
        simp only [hct] at hrun
        exact absurd hrun (by simp)
      | some res1 =>
        obtain ⟨j, h1⟩ := res1
        simp only [hct] at hrun
        cases hcl2 : cloneList (fuel + 1) h1 rest with
        | none =>
          simp only [hcl2] at hrun
          exact absurd hrun (by simp)
        | some res2 =>
          obtain ⟨js', h2⟩ := res2
          simp only [hcl2, Option.some.injEq, Prod.mk.injEq] at hrun
          obtain ⟨rfl, rfl⟩ := hrun
          obtain ⟨hext1, hwf1, hcl1, hj, hlivej, hreachj⟩ :=
            treeClause h i j h1 hwf hcl hct
          obtain ⟨hext2, hwf2, hcl2', hmems⟩ := ihl h1 js' h2 hwf1 hcl1 hcl2
          refine ⟨heapExtends_trans hext1 hext2, hwf2, hcl2', ?_⟩
          intro x hx
          rcases List.mem_cons.mp hx with rfl | hx'
          · refine ⟨hj, extends_isSome hext2 hwf1 hlivej, ?_⟩
            intro y hy
            exact hreachj y (reach_back hext2 hwf1 hcl1 hlivej hy)
          · obtain ⟨hb, hlive, hreach⟩ := hmems x hx'
            exact ⟨le_trans hext1.1 hb, hlive, fun y hy =>
              le_trans hext1.1 (hreach y hy)⟩

theorem replace_fresh : ∀ fuel : ℕ,
    (∀ h root target repl j h', h.wf → h.closed →
      replaceSubtree fuel h root target repl = some (j, h') → FreshTree h h' j) ∧
    (∀ h l target repl js h', h.wf → h.closed →
      replaceList fuel h l target repl = some (js, h') → FreshList h h' js) := by
  intro fuel
  induction fuel with
  | zero =>
    constructor
    · intro h root target repl j h' _ _ hrun
      rw [replaceSubtree] at hrun
      exact absurd hrun (by simp)
    · intro h l target repl js h' hwf hcl hrun
      cases l with
      | nil =>
        rw [replaceList] at hrun
        simp only [Option.some.injEq, Prod.mk.injEq] at hrun
        obtain ⟨rfl, rfl⟩ := hrun
        exact ⟨heapExtends_refl h, hwf, hcl, by simp⟩
      | cons i rest =>
        rw [replaceList, replaceSubtree] at hrun
        exact absurd hrun (by simp)
  | succ fuel ih =>
    have treeClause : ∀ h root target repl j h', h.wf → h.closed →
        replaceSubtree (fuel + 1) h root target repl = some (j, h') →
        FreshTree h h' j := by
      intro h root target repl j h' hwf hcl hrun
      rw [replaceSubtree] at hrun
      by_cases htgt : root = target
      · rw [if_pos htgt] at hrun
        exact (clone_fresh (fuel + 1)).1 h repl j h' hwf hcl hrun
      · rw [if_neg htgt] at hrun
        cases hm : h.mem root with
        | none => rw [hm] at hrun; exact absurd hrun (by simp)
        | some r =>
          simp only [hm] at hrun
          cases hcs : replaceList fuel h r.children target repl with
          | none => simp only [hcs] at hrun; exact absurd hrun (by simp)
          | some res =>
            obtain ⟨cs, h1⟩ := res
            simp only [hcs, Option.some.injEq] at hrun
            obtain ⟨hext1, hwf1, hcl1, hmems⟩ :=
              ih.2 h r.children target repl cs h1 hwf hcl hcs
            have hj : j = (h1.alloc ⟨r.symbol, cs⟩).1 := by rw [hrun]
            have hh' : h' = (h1.alloc ⟨r.symbol, cs⟩).2 := by rw [hrun]
            subst hj
            subst hh'
            have hext2 := alloc_extends h1 ⟨r.symbol, cs⟩
            refine ⟨heapExtends_trans hext1 hext2, wf_alloc hwf1 _,
              closed_alloc hwf1 hcl1 (fun c hc => (hmems c hc).2.1), ?_, ?_, ?_⟩
            · rw [alloc_fst]
              exact hext1.1
            · rw [alloc_mem_fst]
              rfl
            · intro x hr
              cases hr with
              | refl =>
                rw [alloc_fst]
                exact hext1.1
              | @child _ c _ rec hmem' hc hr' =>
                rw [alloc_mem_fst] at hmem'
                injection hmem' with hrec
                rw [← hrec] at hc
                have hlive := (hmems c hc).2.1
                have := reach_back hext2 hwf1 hcl1 hlive hr'
                exact (hmems c hc).2.2 x this
    refine ⟨treeClause, ?_⟩
    intro h l
    induction l generalizing h with
    | nil =>
      intro target repl js h' hwf hcl hrun
      rw [replaceList] at hrun
      simp only [Option.some.injEq, Prod.mk.injEq] at hrun
      obtain ⟨rfl, rfl⟩ := hrun
      exact ⟨heapExtends_refl h, hwf, hcl, by simp⟩
    | cons i rest ihl =>
      intro target repl js h' hwf hcl hrun
      rw [replaceList] at hrun
      cases hct : replaceSubtree (fuel + 1) h i target repl with
      | none =>
        simp only [hct] at hrun
        exact absurd hrun (by simp)
      | some res1 =>
        obtain ⟨j, h1⟩ := res1
        simp only [hct] at hrun
        cases hcl2 : replaceList (fuel + 1) h1 rest target repl with
        | none =>
          simp only [hcl2] at hrun
          exact absurd hrun (by simp)
        | some res2 =>
          obtain ⟨js', h2⟩ := res2
          simp only [hcl2, Option.some.injEq, Prod.mk.injEq] at hrun
          obtain ⟨rfl, rfl⟩ := hrun
          obtain ⟨hext1, hwf1, hcl1, hj, hlivej, hreachj⟩ :=
            treeClause h i target repl j h1 hwf hcl hct
          obtain ⟨hext2, hwf2, hcl2', hmems⟩ :=
            ihl h1 target repl js' h2 hwf1 hcl1 hcl2
          refine ⟨heapExtends_trans hext1 hext2, hwf2, hcl2', ?_⟩
          intro x hx
          rcases List.mem_cons.mp hx with rfl | hx'
          · refine ⟨hj, extends_isSome hext2 hwf1 hlivej, ?_⟩
            intro y hy
            exact hreachj y (reach_back hext2 hwf1 hcl1 hlivej hy)
          · obtain ⟨hb, hlive, hreach⟩ := hmems x hx'
            exact ⟨le_trans hext1.1 hb, hlive, fun y hy =>
              le_trans hext1.1 (hreach y hy)⟩

theorem read_extends : ∀ fuel : ℕ,
    (∀ h h' i t, heapExtends h h' → h.wf → readTree fuel h i = some t →
      readTree fuel h' i = some t) ∧
    (∀ h h' l ts, heapExtends h h' → h.wf → readList fuel h l = some ts →
      readList fuel h' l = some ts) := by
  intro fuel
  induction fuel with
  | zero =>
    constructor
    · intro h h' i t _ _ hrun
      rw [readTree] at hrun
      exact absurd hrun (by simp)
    · intro h h' l ts hext hwf hrun
      cases l with
      | nil => rw [readList] at hrun ⊢; exact hrun
      | cons i rest =>
        rw [readList, readTree] at hrun
        exact absurd hrun (by simp)
  | succ fuel ih =>
    have treeClause : ∀ h h' i t, heapExtends h h' → h.wf →
        readTree (fuel + 1) h i = some t → readTree (fuel + 1) h' i = some t := by
      intro h h' i t hext hwf hrun
      rw [readTree] at hrun ⊢
      cases hm : h.mem i with
      | none => rw [hm] at hrun; exact absurd hrun (by simp)
      | some r =>
        simp only [hm] at hrun
        cases hl : readList fuel h r.children with
        | none => simp only [hl] at hrun; exact absurd hrun (by simp)
        | some ts =>
          simp only [hl] at hrun
          simp only [extends_mem hext hwf hm, ih.2 h h' r.children ts hext hwf hl]
          exact hrun
    refine ⟨treeClause, ?_⟩
    intro h h' l ts hext hwf hrun
    induction l generalizing ts with
    | nil => rw [readList] at hrun ⊢; exact hrun
    | cons i rest ihl =>
      rw [readList] at hrun ⊢
      cases ht : readTree (fuel + 1) h i with
      | none => simp only [ht] at hrun; exact absurd hrun (by simp)
      | some t =>
        simp only [ht] at hrun
        cases hts : readList (fuel + 1) h rest with
        | none => simp only [hts] at hrun; exact absurd hrun (by simp)
        | some ts' =>
          simp only [hts] at hrun
          simp only [treeClause h h' i t hext hwf ht, ihl ts' hts]
          exact hrun

theorem allocList_fresh_of (l : List DerivationNode)
    (ihs : ∀ c ∈ l, ∀ h : Heap, h.wf → h.closed →
      FreshTree h (allocTree h c).2 (allocTree h c).1) :
    ∀ h : Heap, h.wf → h.closed → FreshList h (allocList h l).2 (allocList h l).1 := by
  induction l with
  | nil =>
    intro h hwf hcl
    rw [allocList]
    exact ⟨heapExtends_refl h, hwf, hcl, by simp⟩
  | cons c rest ihl =>
    intro h hwf hcl
    rcases hat : allocTree h c with ⟨j, h1⟩
    rcases hal : allocList h1 rest with ⟨js, h2⟩
    have htree := ihs c (by simp) h hwf hcl
    rw [hat] at htree
    obtain ⟨hext1, hwf1, hcl1, hj, hlivej, hreachj⟩ := htree
    have hlist := ihl (fun c' hc' => ihs c' (by simp [hc'])) h1 hwf1 hcl1
    rw [hal] at hlist
    obtain ⟨hext2, hwf2, hcl2, hmems⟩ := hlist
    rw [allocList]
    simp only [hat, hal]
    refine ⟨heapExtends_trans hext1 hext2, hwf2, hcl2, ?_⟩
    intro x hx
    rcases List.mem_cons.mp hx with rfl | hx'
    · refine ⟨hj, extends_isSome hext2 hwf1 hlivej, ?_⟩
      intro y hy
      exact hreachj y (reach_back hext2 hwf1 hcl1 hlivej hy)
    · obtain ⟨hb, hlive, hreach⟩ := hmems x hx'
      exact ⟨le_trans hext1.1 hb, hlive, fun y hy =>
        le_trans hext1.1 (hreach y hy)⟩

theorem allocTree_fresh : ∀ t : DerivationNode, ∀ h : Heap, h.wf → h.closed →
    FreshTree h (allocTree h t).2 (allocTree h t).1 := by
  intro t
  induction t using derivation_induction with
  | h sym children ih =>
    intro h hwf hcl
    have hlist := allocList_fresh_of children ih h hwf hcl
    rcases hal : allocList h children with ⟨cs, h1⟩
    rw [hal] at hlist
    obtain ⟨hext1, hwf1, hcl1, hmems⟩ := hlist
    rw [allocTree]
    simp only [hal]
    have hext2 := alloc_extends h1 ⟨sym, cs⟩
    refine ⟨heapExtends_trans hext1 hext2, wf_alloc hwf1 _,
      closed_alloc hwf1 hcl1 (fun c hc => (hmems c hc).2.1), ?_, ?_, ?_⟩
    · rw [alloc_fst]
      exact hext1.1
    · rw [alloc_mem_fst]
      rfl
    · intro x hr
      cases hr with
      | refl =>
        rw [alloc_fst]
        exact hext1.1
      | @child _ c _ rec hmem' hc hr' =>
        rw [alloc_mem_fst] at hmem'
        injection hmem' with hrec
        rw [← hrec] at hc
        have hlive := (hmems c hc).2.1
        have := reach_back hext2 hwf1 hcl1 hlive hr'
        exact (hmems c hc).2.2 x this

theorem option_eq_some_getD {α : Type} (o : Option α) (d : α) (h : ¬ o = none) :
    o = some (o.getD d) := by
  cases o with
  | none => exact absurd rfl h
  | some a => simp

/-! ## Claim theorems: variation operators -/

/-- C6: crossover and mutation leave every pre-existing node record —
in particular both parents' derivation trees — untouched in the heap
(same ids, same contents, so unchanged structure and node identity),
and return an individual whose derivation tree consists exclusively of
freshly allocated nodes, disjoint from every node reachable from
either parent, with its expression and complexity recomputed from that
new tree. -/
theorem variation_fresh_and_frame (h : Heap) (hwf : h.wf) (hcl : h.closed) :
    (∀ pa pb fuel na nb h' res,
      (h.mem pa).isSome = true → (h.mem pb).isSome = true →
      crossover h pa pb fuel na nb = some (h', res) →
      heapExtends h h' ∧
      (∀ i r, h.mem i = some r → h'.mem i = some r) ∧
      (∀ F t, readTree F h pa = some t → readTree F h' pa = some t) ∧
      (∀ F t, readTree F h pb = some t → readTree F h' pb = some t) ∧
      (∀ ind, res = .ok ind →
        (∀ x, Reach h' ind.derivation x →
          ∀ y, Reach h pa y ∨ Reach h pb y → x ≠ y) ∧
        (∃ t, readTree fuel h' ind.derivation = some t ∧
          convert t = .ok ind.expression ∧ ind.complexity = compute_metrics t))) ∧
    (∀ p fuel nt g s genFuel max_depth h' res,
      (h.mem p).isSome = true →
      mutation h p fuel nt g s genFuel max_depth = some (.ok (h', res)) →
      heapExtends h h' ∧
      (∀ i r, h.mem i = some r → h'.mem i = some r) ∧
      (∀ F t, readTree F h p = some t → readTree F h' p = some t) ∧
      (∀ ind, res = .ok ind →
        (∀ x, Reach h' ind.derivation x → ∀ y, Reach h p y → x ≠ y) ∧
        (∃ t, readTree fuel h' ind.derivation = some t ∧
          convert t = .ok ind.expression ∧ ind.complexity = compute_metrics t))) := by
  constructor
  · intro pa pb fuel na nb h' res hpa hpb hrun
    rw [crossover] at hrun
    cases hch : crossoverHeap h pa pb fuel na nb with
    | none =>
      simp only [hch] at hrun
      exact absurd hrun (by simp)
    | some res0 =>
      obtain ⟨childId, hX⟩ := res0
      simp only [hch] at hrun
      cases hrt : readTree fuel hX childId with
      | none =>
        simp only [hrt] at hrun
        exact absurd hrun (by simp)
      | some t =>
        simp only [hrt] at hrun
        rw [crossoverHeap] at hch
        cases hca : cloneTree fuel h pa with
        | none =>
          simp only [hca] at hch
          exact absurd hch (by simp)
        | some resA =>
          obtain ⟨aId, h1⟩ := resA
          simp only [hca] at hch
          cases hcb : cloneTree fuel h1 pb with
          | none =>
            simp only [hcb] at hch
            exact absurd hch (by simp)
          | some resB =>
            obtain ⟨bId, h2⟩ := resB
            simp only [hcb] at hch
            cases hta : traverseIds fuel h2 aId with
            | none =>
              simp only [hta] at hch
              exact absurd hch (by simp)
            | some aNodes =>
              simp only [hta] at hch
              cases htb : traverseIds fuel h2 bId with
              | none =>
                simp only [htb] at hch
                exact absurd hch (by simp)
              | some bNodes =>
                simp only [htb] at hch
                obtain ⟨hext1, hwf1, hcl1, _, _, _⟩ :=
                  (clone_fresh fuel).1 h pa aId h1 hwf hcl hca
                obtain ⟨hext2, hwf2, hcl2, _, _, _⟩ :=
                  (clone_fresh fuel).1 h1 pb bId h2 hwf1 hcl1 hcb
                obtain ⟨hext3, hwf3, hcl3, hid, hlive3, hreach3⟩ :=
                  (replace_fresh fuel).1 h2 aId
                    (aNodes.getD (na % aNodes.length) 0)
                    (bNodes.getD (nb % bNodes.length) 0) childId hX hwf2 hcl2 hch
                have hextAll : heapExtends h hX :=
                  heapExtends_trans hext1 (heapExtends_trans hext2 hext3)
                have hframe : ∀ i r, h.mem i = some r → hX.mem i = some r :=
                  fun i r hm => extends_mem hextAll hwf hm
                have hcommon : heapExtends h hX ∧
                    (∀ i r, h.mem i = some r → hX.mem i = some r) ∧
                    (∀ F t', readTree F h pa = some t' →
                      readTree F hX pa = some t') ∧
                    (∀ F t', readTree F h pb = some t' →
                      readTree F hX pb = some t') :=
                  ⟨hextAll, hframe,
                    fun F t' ht' => (read_extends F).1 h hX pa t' hextAll hwf ht',
                    fun F t' ht' => (read_extends F).1 h hX pb t' hextAll hwf ht'⟩
                cases hcv : convert t with
                | error e =>
                  simp only [hcv] at hrun
                  simp only [Option.some.injEq, Prod.mk.injEq] at hrun
                  obtain ⟨rfl, rfl⟩ := hrun
                  refine ⟨hcommon.1, hcommon.2.1, hcommon.2.2.1, hcommon.2.2.2, ?_⟩
                  intro ind hind
                  exact absurd hind (by simp)
                | ok e =>
                  simp only [hcv] at hrun
                  simp only [Option.some.injEq, Prod.mk.injEq] at hrun
                  obtain ⟨rfl, rfl⟩ := hrun
                  refine ⟨hcommon.1, hcommon.2.1, hcommon.2.2.1, hcommon.2.2.2, ?_⟩
                  intro ind hind
                  injection hind with hind'
                  subst hind'
                  refine ⟨?_, t, hrt, hcv, rfl⟩
                  intro x hx y hy
                  have hxge : h.next ≤ x := by
                    have h3x := hreach3 x hx
                    have e1 := hext1.1
                    have e2 := hext2.1
                    omega
                  have hylt : y < h.next := by
                    rcases hy with hy | hy
                    · exact isSome_lt_next hwf (reach_live hcl hpa hy)
                    · exact isSome_lt_next hwf (reach_live hcl hpb hy)
                  omega
  · intro p fuel nt g s genFuel max_depth h' res hp hrun
    rw [mutation] at hrun
    cases hmh : mutationHeap h p fuel nt g s genFuel max_depth with
    | none =>
      simp only [hmh] at hrun
      exact absurd hrun (by simp)
    | some mres =>
      cases mres with
      | error e => simp only [hmh] at hrun; simp at hrun
      | ok pres =>
        obtain ⟨mId, h3⟩ := pres
        simp only [hmh] at hrun
        cases hrt : readTree fuel h3 mId with
        | none =>
          simp only [hrt] at hrun
          exact absurd hrun (by simp)
        | some t =>
          simp only [hrt] at hrun
          rw [mutationHeap] at hmh
          cases hcp : cloneTree fuel h p with
          | none =>
            simp only [hcp] at hmh
            exact absurd hmh (by simp)
          | some resP =>
            obtain ⟨treeId, h1⟩ := resP
            simp only [hcp] at hmh
            cases htr : traverseIds fuel h1 treeId with
            | none =>
              simp only [htr] at hmh
              exact absurd hmh (by simp)
            | some nodes =>
              simp only [htr] at hmh
              cases hgen : Grammar.generate g s genFuel max_depth with
              | error e => simp only [hgen] at hmh; simp at hmh
              | ok newSub =>
                simp only [hgen] at hmh
                rcases hat : allocTree h1 newSub with ⟨subId, h2⟩
                rw [hat] at hmh
                cases hrs : replaceSubtree fuel h2 treeId
                    (nodes.getD (nt % nodes.length) 0) subId with
                | none =>
                  simp only [hrs] at hmh
                  exact absurd hmh (by simp)
                | some resR =>
                  obtain ⟨mId', h3'⟩ := resR
                  simp only [hrs, Option.some.injEq, Except.ok.injEq,
                    Prod.mk.injEq] at hmh
                  obtain ⟨rfl, rfl⟩ := hmh
                  obtain ⟨hext1, hwf1, hcl1, _, _, _⟩ :=
                    (clone_fresh fuel).1 h p treeId h1 hwf hcl hcp
                  have halloc := allocTree_fresh newSub h1 hwf1 hcl1
                  rw [hat] at halloc
                  dsimp only at halloc
                  obtain ⟨hext2, hwf2, hcl2, _, _, _⟩ := halloc
                  obtain ⟨hext3, hwf3, hcl3, hid, hlive3, hreach3⟩ :=
                    (replace_fresh fuel).1 h2 treeId
                      (nodes.getD (nt % nodes.length) 0) subId mId' h3' hwf2
                      hcl2 hrs
                  have hextAll : heapExtends h h3' :=
                    heapExtends_trans hext1 (heapExtends_trans hext2 hext3)
                  have hframe : ∀ i r, h.mem i = some r → h3'.mem i = some r :=
                    fun i r hm => extends_mem hextAll hwf hm
                  cases hcv : convert t with
                  | error e =>
                    simp only [hcv] at hrun
                    simp only [Option.some.injEq, Except.ok.injEq,
                      Prod.mk.injEq] at hrun
                    obtain ⟨rfl, rfl⟩ := hrun
                    refine ⟨hextAll, hframe,
                      fun F t' ht' =>
                        (read_extends F).1 h h3' p t' hextAll hwf ht', ?_⟩
                    intro ind hind
                    exact absurd hind (by simp)
                  | ok e =>
                    simp only [hcv] at hrun
                    simp only [Option.some.injEq, Except.ok.injEq,
                      Prod.mk.injEq] at hrun
                    obtain ⟨rfl, rfl⟩ := hrun
                    refine ⟨hextAll, hframe,
                      fun F t' ht' =>
                        (read_extends F).1 h h3' p t' hextAll hwf ht', ?_⟩
                    intro ind hind
                    injection hind with hind'
                    subst hind'
                    refine ⟨?_, t, hrt, hcv, rfl⟩
                    intro x hx y hy
                    have hxge : h.next ≤ x := by
                      have h3x := hreach3 x hx
                      have e1 := hext1.1
                      have e2 := hext2.1
                      omega
                    have hylt : y < h.next :=
                      isSome_lt_next hwf (reach_live hcl hp hy)
                    omega

/-- Closed-form instantiation of C6's theorem: on a concrete two-leaf
heap, both crossover and mutation extend the heap and leave the parent
record at id 0 untouched. -/
theorem variation_fresh_and_frame_witness :
    (heapExtends sampleHeap crossResult.1 ∧
      crossResult.1.mem 0 = some ⟨"x", []⟩) ∧
    (heapExtends sampleHeap mutResult.1 ∧
      mutResult.1.mem 0 = some ⟨"x", []⟩) := by
  have hwfS : sampleHeap.wf := by
    intro i hi
    have h0 : i ≠ 0 := by simp [sampleHeap] at hi; omega
    have h1 : i ≠ 1 := by simp [sampleHeap] at hi; omega
    simp [sampleHeap, h0, h1]
  have hclS : sampleHeap.closed := by
    intro i r hmem c hc
    by_cases h0 : i = 0
    · subst h0
      simp [sampleHeap] at hmem
      rw [← hmem] at hc
      simp at hc
    · by_cases h1 : i = 1
      · subst h1
        simp [sampleHeap, h0] at hmem
        rw [← hmem] at hc
        simp at hc
      · simp [sampleHeap, h0, h1] at hmem
  constructor
  · have hrunC : crossover sampleHeap 0 1 3 0 0 =
        some (crossResult.1, crossResult.2) := by
      simp [crossResult, crossover, crossoverHeap, cloneTree, cloneList,
        replaceSubtree, replaceList, traverseIds, traverseList, readTree,
        readList, Heap.alloc, sampleHeap, convert, convertExpr,
        convertOperation, convertVar, convertConst, convertOp, convertPass,
        extractToken, isNonTerminal, lastChar]
    obtain ⟨hext, hframe, _⟩ :=
      (variation_fresh_and_frame sampleHeap hwfS hclS).1 0 1 3 0 0
        crossResult.1 crossResult.2 rfl rfl hrunC
    exact ⟨hext, hframe 0 ⟨"x", []⟩ rfl⟩
  · have hrunM : mutation sampleHeap 0 3 0 demoGrammar (fun _ => 0) 3 1 =
        some (.ok (mutResult.1, mutResult.2)) := by
      simp [mutResult, mutation, mutationHeap, cloneTree, cloneList,
        replaceSubtree, replaceList, traverseIds, traverseList, readTree,
        readList, allocTree, allocList, Heap.alloc, sampleHeap, demoGrammar,
        Grammar.generate, Grammar.expand, Grammar.expandTokens,
        eligible_productions, Grammar.productions_for, convert, convertExpr,
        convertOperation, convertVar, convertConst, convertOp, convertPass,
        extractToken, isNonTerminal, lastChar, Except.toOption, Option.getD]
    obtain ⟨hext, hframe, _⟩ :=
      (variation_fresh_and_frame sampleHeap hwfS hclS).2 0 3 0 demoGrammar
        (fun _ => 0) 3 1 mutResult.1 mutResult.2 rfl hrunM
    exact ⟨hext, hframe 0 ⟨"x", []⟩ rfl⟩

/-! ## Helper lemmas: replace without a matching target acts as clone -/

theorem read_isSome {fuel : ℕ} {h : Heap} {i : ℕ} {t : DerivationNode}
    (hrd : readTree fuel h i = some t) : (h.mem i).isSome = true := by
  cases fuel with
  | zero => rw [readTree] at hrd; exact absurd hrd (by simp)
  | succ fuel =>
    rw [readTree] at hrd
    cases hm : h.mem i with
    | none => rw [hm] at hrd; exact absurd hrd (by simp)
    | some r => rfl

theorem not_reach_child {h : Heap} {i target : ℕ} {r : NodeRec}
    (hnr : ¬ Reach h i target) (hmem : h.mem i = some r) :
    ∀ c ∈ r.children, ¬ Reach h c target :=
  fun c hc hr => hnr (Reach.child hmem hc hr)

theorem readList_mem {fuel : ℕ} {h : Heap} :
    ∀ {l : List ℕ} {ts : List DerivationNode},
      readList fuel h l = some ts → ∀ c ∈ l, ∃ tc, readTree fuel h c = some tc := by
  intro l
  induction l with
  | nil => intro ts _ c hc; simp at hc
  | cons d ds ihd =>
    intro ts hrd c hc
    rw [readList] at hrd
    cases hd : readTree fuel h d with
    | none => rw [hd] at hrd; exact absurd hrd (by simp)
    | some td =>
      simp only [hd] at hrd
      cases hds : readList fuel h ds with
      | none => simp only [hds] at hrd; exact absurd hrd (by simp)
      | some tds =>
        rcases List.mem_cons.mp hc with rfl | hc'
        · exact ⟨td, hd⟩
        · exact ihd hds c hc'

theorem replace_noTarget : ∀ fuel : ℕ,
    (∀ h root target repl t, h.wf → h.closed → ¬ Reach h root target →
      readTree fuel h root = some t →
      ∃ j h', replaceSubtree fuel h root target repl = some (j, h') ∧
        readTree fuel h' j = some t) ∧
    (∀ h l target repl ts, h.wf → h.closed →
      (∀ c ∈ l, ¬ Reach h c target) →
      readList fuel h l = some ts →
      ∃ cs h', replaceList fuel h l target repl = some (cs, h') ∧
        readList fuel h' cs = some ts) := by
  intro fuel
  induction fuel with
  | zero =>
    constructor
    · intro h root target repl t _ _ _ hrd
      rw [readTree] at hrd
      exact absurd hrd (by simp)
    · intro h l target repl ts hwf hcl hnr hrd
      cases l with
      | nil =>
        rw [readList] at hrd
        simp only [Option.some.injEq] at hrd
        subst hrd
        exact ⟨[], h, by rw [replaceList], by rw [readList]⟩
      | cons i rest =>
        rw [readList, readTree] at hrd
        exact absurd hrd (by simp)
  | succ fuel ih =>
    have treeClause : ∀ h root target repl t, h.wf → h.closed →
        ¬ Reach h root target → readTree (fuel + 1) h root = some t →
        ∃ j h', replaceSubtree (fuel + 1) h root target repl = some (j, h') ∧
          readTree (fuel + 1) h' j = some t := by
      intro h root target repl t hwf hcl hnr hrd
      have hne : root ≠ target := fun he => hnr (he ▸ Reach.refl root)
      rw [readTree] at hrd
      cases hm : h.mem root with
      | none => rw [hm] at hrd; exact absurd hrd (by simp)
      | some r =>
        simp only [hm] at hrd
        cases hrl : readList fuel h r.children with
        | none => simp only [hrl] at hrd; exact absurd hrd (by simp)
        | some ts =>
          simp only [hrl, Option.some.injEq] at hrd
          subst hrd
          obtain ⟨cs, h1, hreplace, hread1⟩ := ih.2 h r.children target repl ts
            hwf hcl (not_reach_child hnr hm) hrl
          obtain ⟨hext1, hwf1, hcl1, _⟩ :=
            (replace_fresh fuel).2 h r.children target repl cs h1 hwf hcl hreplace
          refine ⟨(h1.alloc ⟨r.symbol, cs⟩).1, (h1.alloc ⟨r.symbol, cs⟩).2, ?_, ?_⟩
          · rw [replaceSubtree, if_neg hne]
            simp only [hm, hreplace]
          · rw [readTree]
            simp only [alloc_mem_fst]
            have := (read_extends fuel).2 h1 (h1.alloc ⟨r.symbol, cs⟩).2 cs ts
              (alloc_extends h1 _) hwf1 hread1
            simp only [this]
    refine ⟨treeClause, ?_⟩
    intro h l
    induction l generalizing h with
    | nil =>
      intro target repl ts hwf hcl hnr hrd
      rw [readList] at hrd
      simp only [Option.some.injEq] at hrd
      subst hrd
      exact ⟨[], h, by rw [replaceList], by rw [readList]⟩
    | cons i rest ihl =>
      intro target repl ts hwf hcl hnr hrd
      rw [readList] at hrd
      cases ht : readTree (fuel + 1) h i with
      | none => simp only [ht] at hrd; exact absurd hrd (by simp)
      | some t0 =>
        simp only [ht] at hrd
        cases hts : readList (fuel + 1) h rest with
        | none => simp only [hts] at hrd; exact absurd hrd (by simp)
        | some ts' =>
          simp only [hts, Option.some.injEq] at hrd
          subst hrd
          obtain ⟨j, h1, hrs, hrdj⟩ := treeClause h i target repl t0 hwf hcl
            (hnr i (by simp)) ht
          obtain ⟨hext1, hwf1, hcl1, _, _, _⟩ :=
            (replace_fresh (fuel + 1)).1 h i target repl j h1 hwf hcl hrs
          have hnr1 : ∀ c ∈ rest, ¬ Reach h1 c target := by
            intro c hc hr1
            obtain ⟨tc, htc⟩ := readList_mem hts c hc
            exact hnr c (by simp [hc])
              (reach_back hext1 hwf hcl (read_isSome htc) hr1)
          have hts1 : readList (fuel + 1) h1 rest = some ts' :=
            (read_extends (fuel + 1)).2 h h1 rest ts' hext1 hwf hts
          obtain ⟨cs', h2, hrl2, hread2⟩ := ihl h1 target repl ts' hwf1 hcl1
            hnr1 hts1
          obtain ⟨hext2, hwf2, hcl2, _⟩ :=
            (replace_fresh (fuel + 1)).2 h1 rest target repl cs' h2 hwf1
              hcl1 hrl2
          refine ⟨j :: cs', h2, ?_, ?_⟩
          · rw [replaceList]
            simp only [hrs, hrl2]
          · rw [readList]
            have hj2 := (read_extends (fuel + 1)).1 h1 h2 j t0 hext2 hwf1 hrdj
            simp only [hj2, hread2]

/-- C10: `replace_subtree` returns a tree sharing no node objects with
`root` or `replacement` (every produced node is freshly allocated);
and when `target` is not a node of `root` by identity, it succeeds
without error and the result is a deep clone of `root`, structurally
equal to it, with no replacement performed. -/
theorem replace_subtree_spec (h : Heap) (hwf : h.wf) (hcl : h.closed) :
    (∀ fuel root target repl j h',
      replaceSubtree fuel h root target repl = some (j, h') →
      (h.mem root).isSome = true → (h.mem repl).isSome = true →
      ∀ x, Reach h' j x → ∀ y, Reach h root y ∨ Reach h repl y → x ≠ y) ∧
    (∀ fuel root target repl t, ¬ Reach h root target →
      readTree fuel h root = some t →
      ∃ j h', replaceSubtree fuel h root target repl = some (j, h') ∧
        readTree fuel h' j = some t) := by
  constructor
  · intro fuel root target repl j h' hrun hroot hrepl x hx y hy
    obtain ⟨hext, hwf', hcl', hj, hlive, hreach⟩ :=
      (replace_fresh fuel).1 h root target repl j h' hwf hcl hrun
    have hxge : h.next ≤ x := hreach x hx
    have hylt : y < h.next := by
      rcases hy with hy | hy
      · exact isSome_lt_next hwf (reach_live hcl hroot hy)
      · exact isSome_lt_next hwf (reach_live hcl hrepl hy)
    omega
  · intro fuel root target repl t hno hread
    exact (replace_noTarget fuel).1 h root target repl t hwf hcl hno hread

/-- Closed-form instantiation of C10's theorem on the two-leaf heap:
replacing at a target that is not in the tree rooted at id 0 yields a
fresh root (distinct from id 0) whose tree reads back structurally
equal to the original. -/
theorem replace_subtree_spec_witness :
    ((replaceSubtree 2 sampleHeap 0 1 1).getD (0, sampleHeap)).1 ≠ 0 ∧
    readTree 2 ((replaceSubtree 2 sampleHeap 0 1 1).getD (0, sampleHeap)).2
      ((replaceSubtree 2 sampleHeap 0 1 1).getD (0, sampleHeap)).1 =
      some (.node "x" []) := by
  have hwfS : sampleHeap.wf := by
    intro i hi
    have h0 : i ≠ 0 := by simp [sampleHeap] at hi; omega
    have h1 : i ≠ 1 := by simp [sampleHeap] at hi; omega
    simp [sampleHeap, h0, h1]
  have hclS : sampleHeap.closed := by
    intro i r hmem c hc
    by_cases h0 : i = 0
    · subst h0
      simp [sampleHeap] at hmem
      rw [← hmem] at hc
      simp at hc
    · by_cases h1 : i = 1
      · subst h1
        simp [sampleHeap, h0] at hmem
        rw [← hmem] at hc
        simp at hc
      · simp [sampleHeap, h0, h1] at hmem
  have hrun : replaceSubtree 2 sampleHeap 0 1 1 =
      some (((replaceSubtree 2 sampleHeap 0 1 1).getD (0, sampleHeap)).1,
        ((replaceSubtree 2 sampleHeap 0 1 1).getD (0, sampleHeap)).2) := by
    simp [replaceSubtree, replaceList, cloneTree, cloneList, Heap.alloc,
      sampleHeap, Option.getD]
  have hno : ¬ Reach sampleHeap 0 1 := by
    intro hr
    cases hr with
    | @child _ c _ r hmem hc _ =>
      simp [sampleHeap] at hmem
      rw [← hmem] at hc
      simp at hc
  have hread : readTree 2 sampleHeap 0 = some (.node "x" []) := by
    simp [readTree, readList, sampleHeap]
  constructor
  · exact (replace_subtree_spec sampleHeap hwfS hclS).1 2 0 1 1
      ((replaceSubtree 2 sampleHeap 0 1 1).getD (0, sampleHeap)).1
      ((replaceSubtree 2 sampleHeap 0 1 1).getD (0, sampleHeap)).2 hrun rfl rfl
      ((replaceSubtree 2 sampleHeap 0 1 1).getD (0, sampleHeap)).1
      (Reach.refl _) 0 (Or.inl (Reach.refl 0))
  · obtain ⟨j, h', hrs, hrd⟩ := (replace_subtree_spec sampleHeap hwfS hclS).2
      2 0 1 1 (.node "x" []) hno hread
    rw [hrun] at hrs
    simp only [Option.some.injEq, Prod.mk.injEq] at hrs
    rw [hrs.1, hrs.2]
    exact hrd
